import Mathlib

/-!
Verification of the strudel-gen data compiler scripts.

We give a shallow embedding of the Python scripts in `scripts/`:
strings are lists of characters, Python dicts are insertion-ordered
association lists (duplicate-free keys, later assignments overwrite in
place), JSON values are an inductive type serialized exactly as
`json.dumps(..., separators=(',', ':'), ensure_ascii=False)` does, and
each script's pure core (parsing, record normalization, merging) is a
Lean function on those types.  File-system effects (reading a file,
`os.listdir`) are modelled by passing the file contents, resp. the
directory listing, as explicit arguments.
-/

namespace StrudelGen

/-- A Python string, modelled as its list of characters. -/
abbrev Str := List Char

/-- Python whitespace (the ASCII characters matched by `str.strip()` and
by the regex class `\s` on the inputs at hand). -/
def wsB (c : Char) : Bool :=
  c = ' ' || c = '\t' || c = '\n' || c = '\r' || c = '\x0b' || c = '\x0c'

/-- Remove trailing whitespace (`str.rstrip()`). -/
def rstripS (s : Str) : Str :=
  (s.reverse.dropWhile wsB).reverse

/-- Remove leading and trailing whitespace (`str.strip()`). -/
def pstrip (s : Str) : Str :=
  rstripS (s.dropWhile wsB)

/-- `s.startswith('//')`. -/
def startsSlashSlash (s : Str) : Bool :=
  match s with
  | '/' :: '/' :: _ => true
  | _ => false

/-- A word character, as matched by the regex class `\w` on the ASCII
inputs at hand. -/
def wordB (c : Char) : Bool :=
  c.isAlpha || c.isDigit || c = '_'

/-- Python `str.lower()` on ASCII strings. -/
def lowerS (s : Str) : Str := s.map Char.toLower

/-- Python `'\n'.join(lines)`. -/
def joinNL (ls : List Str) : Str :=
  match ls with
  | [] => []
  | [l] => l
  | l :: rest => l ++ '\n' :: joinNL rest

/-- Python `s.split(',')`: the comma-separated chunks of `s` (never the
empty list; an empty string yields one empty chunk). -/
def splitComma (s : Str) : List Str :=
  match s with
  | [] => [[]]
  | c :: rest =>
      let r := splitComma rest
      if c = ',' then [] :: r
      else match r with
           | [] => [[c]]
           | h :: t => (c :: h) :: t

/-! ### Python dicts as insertion-ordered association lists -/

/-- Dictionary lookup (`d.get(k)` / `d[k]`). -/
def dlookup (k : Str) : List (Str × α) → Option α
  | [] => none
  | (k', v) :: t => if k' = k then some v else dlookup k t

/-- Dictionary lookup with default (`d.get(k, dflt)`). -/
def dget (d : List (Str × α)) (k : Str) (dflt : α) : α :=
  (dlookup k d).getD dflt

/-- Dictionary assignment `d[k] = v`: overwrite in place if the key is
present, append otherwise (Python dicts preserve insertion order). -/
def dset (d : List (Str × α)) (k : Str) (v : α) : List (Str × α) :=
  if (dlookup k d).isSome then
    d.map (fun p => if p.1 = k then (k, v) else p)
  else d ++ [(k, v)]

/-! ### JSON values and `json.dumps(..., separators=(',',':'), ensure_ascii=False)` -/

/-- A JSON value.  Objects keep their keys in insertion order, as Python
dicts do. -/
inductive JVal where
  | jstr : Str → JVal
  | jint : Int → JVal
  | jbool : Bool → JVal
  | jnull : JVal
  | jarr : List JVal → JVal
  | jobj : List (Str × JVal) → JVal

/-- One hexadecimal digit. -/
def hexDigit (n : Nat) : Char :=
  if n < 10 then Char.ofNat ('0'.toNat + n) else Char.ofNat ('a'.toNat + (n - 10))

/-- The escape sequence `json.dumps` produces for one character of a
string, with `ensure_ascii=False`. -/
def escChar (c : Char) : Str :=
  if c = '"' then ['\\', '"']
  else if c = '\\' then ['\\', '\\']
  else if c = '\n' then ['\\', 'n']
  else if c = '\t' then ['\\', 't']
  else if c = '\r' then ['\\', 'r']
  else if c = '\x08' then ['\\', 'b']
  else if c = '\x0c' then ['\\', 'f']
  else if c.toNat < 32 then
    ['\\', 'u', '0', '0', hexDigit (c.toNat / 16), hexDigit (c.toNat % 16)]
  else [c]

/-- Serialize a JSON string body (no surrounding quotes). -/
def escStr (s : Str) : Str := s.flatMap escChar

/-- Decimal representation of an integer, as Python prints it. -/
def intStr (i : Int) : Str := (toString i).data

mutual

/-- Compact serialization of a JSON value: exactly
`json.dumps(v, separators=(',', ':'), ensure_ascii=False)`. -/
def jdump : JVal → Str
  | .jstr s => '"' :: escStr s ++ ['"']
  | .jint i => intStr i
  | .jbool b => if b then ['t','r','u','e'] else ['f','a','l','s','e']
  | .jnull => ['n','u','l','l']
  | .jarr xs => '[' :: jdumpArr xs ++ [']']
  | .jobj kvs => '{' :: jdumpObj kvs ++ ['}']

/-- Serialize the elements of a JSON array, comma separated. -/
def jdumpArr : List JVal → Str
  | [] => []
  | [x] => jdump x
  | x :: rest => jdump x ++ ',' :: jdumpArr rest

/-- Serialize the members of a JSON object, comma separated. -/
def jdumpObj : List (Str × JVal) → Str
  | [] => []
  | [(k, v)] => '"' :: escStr k ++ '"' :: ':' :: jdump v
  | (k, v) :: rest => '"' :: escStr k ++ '"' :: ':' :: jdump v ++ ',' :: jdumpObj rest

end

/-- Truthiness of a JSON value, as Python evaluates it (`if info.get(k):`). -/
def jTruthy : JVal → Bool
  | .jstr s => !s.isEmpty
  | .jint i => !(i == 0)
  | .jbool b => b
  | .jnull => false
  | .jarr l => !l.isEmpty
  | .jobj m => !m.isEmpty

/-! ### The header-comment parser

Both `generate-idioms.py` (`parse_strudel_file`) and
`generate-snippets.py` (`parse_snippet_file`) scan the leading lines of a
file for `// @key: value` metadata.  The line classifier is the regex
`^//\s*@(\w+):\s*(.+)$` applied to the stripped line.  Since `\w` and the
literal characters `@` and `:` are disjoint from `\s` and from each
other, the only backtracking the regex engine can perform is between the
second `\s*` and `(.+)`: when everything after the colon is whitespace,
`\s*` yields it back so that `(.+)` can match.  `metaRest` reproduces
that behaviour exactly. -/

/-- Match `\s*(.+)$` against the text after the colon: group 2 of the
regex, or `none` when the remainder is empty. -/
def metaRest (rest : Str) : Option Str :=
  if !(rest.dropWhile wsB).isEmpty then some (rest.dropWhile wsB)
  else if !rest.isEmpty then some rest
  else none

/-- Match `^//\s*@(\w+):\s*(.+)$` against a stripped line and return
`(key.lower(), value.strip())` as `parse_strudel_file` and
`parse_snippet_file` compute them. -/
def parseMetaLine (stripped : Str) : Option (Str × Str) :=
  match stripped with
  | '/' :: '/' :: r1 =>
    (match r1.dropWhile wsB with
     | '@' :: r3 =>
       let w := r3.takeWhile wordB
       (match r3.dropWhile wordB with
        | ':' :: rest =>
          if w.isEmpty then none
          else
            (match metaRest rest with
             | some g2 => some (lowerS w, pstrip g2)
             | none => none)
        | _ => none)
     | _ => none)
  | _ => none

/-- A line that is blank after stripping. -/
def blankL (l : Str) : Bool := (pstrip l).isEmpty

/-- Drop leading and trailing fully-blank lines (the two `while ... pop`
loops of `parse_strudel_file`). -/
def trimBlankEnds (ls : List Str) : List Str :=
  ((ls.dropWhile blankL).reverse.dropWhile blankL).reverse

/-! ### generate-idioms.py -/

namespace GenIdioms

open StrudelGen

/-- The metadata scan of `parse_strudel_file`: walk the lines with the
current index `i`, the metadata dict `md` and the running `code_start`
value `cs`, returning the final `(metadata, code_start)` pair. -/
def scanHeader : List Str → Nat → List (Str × Str) → Nat → List (Str × Str) × Nat
  | [], _, md, cs => (md, cs)
  | line :: rest, i, md, cs =>
    if (pstrip line).isEmpty && md.isEmpty then
      scanHeader rest (i + 1) md (i + 1)
    else
      match parseMetaLine (pstrip line) with
      | some (k, v) => scanHeader rest (i + 1) (dset md k v) (i + 1)
      | none =>
        if startsSlashSlash (pstrip line) && md.isEmpty then
          scanHeader rest (i + 1) md (i + 1)
        else (md, cs)

/-- The record `parse_strudel_file` returns on success. -/
structure IdiomRec where
  name : Str
  cat : Str
  desc : Str
  notes : Option Str
  tags : Option Str
  functions : Option Str
  code : Str
  deriving DecidableEq

/-- Outcome of `parse_strudel_file`: the two `return None` paths are kept
apart so that the warning each one prints stays visible. -/
inductive IdiomParse where
  | missingFields (missing : List Str)
  | noCode
  | ok (r : IdiomRec)
  deriving DecidableEq

/-- The required header fields of an idiom file. -/
def requiredFields : List Str := ["name".data, "cat".data, "desc".data]

/-- `parse_strudel_file`, given the file content as its list of lines
(`content.split('\n')`). -/
def parseStrudelFile (lines : List Str) : IdiomParse :=
  let scanned := scanHeader lines 0 [] 0
  let md := scanned.1
  let missing := requiredFields.filter (fun f => (dlookup f md).isNone)
  if !missing.isEmpty then .missingFields missing
  else
    let code := joinNL (trimBlankEnds (lines.drop scanned.2))
    if code.isEmpty then .noCode
    else .ok {
      name := dget md "name".data []
      cat := dget md "cat".data []
      desc := dget md "desc".data []
      notes := dlookup "notes".data md
      tags := dlookup "tags".data md
      functions := dlookup "functions".data md
      code := code }

/-- Truthiness of `record.get(k)` for an optional string field. -/
def optTruthy : Option Str → Bool
  | some v => !v.isEmpty
  | none => false

/-- The shared `if record.get(k): rec[k] = f(record[k])` pattern of the
record builders: insert the rendered field only when the raw optional
value is truthy. -/
def optField (d : List (Str × JVal)) (key : Str) (v? : Option Str) (f : Str → JVal) :
    List (Str × JVal) :=
  match v? with
  | some v => if !v.isEmpty then dset d key (f v) else d
  | none => d

/-- The rendering of a comma-separated list field in `generate_idioms`:
`[t.strip() for t in raw.split(',')]` — elements trimmed, empty
elements kept. -/
def commaList (v : Str) : JVal :=
  .jarr ((splitComma v).map (fun t => .jstr (pstrip t)))

/-- The compact JSON record `generate_idioms` builds from a parsed
idiom: required fields first, optional fields only when truthy, `code`
last. -/
def idiomRecJson (r : IdiomRec) : List (Str × JVal) :=
  let r0 : List (Str × JVal) :=
    [("name".data, .jstr r.name), ("cat".data, .jstr r.cat), ("desc".data, .jstr r.desc)]
  let r1 := optField r0 "notes".data r.notes .jstr
  let r2 := optField r1 "tags".data r.tags commaList
  let r3 := optField r2 "functions".data r.functions commaList
  dset r3 "code".data (.jstr r.code)

end GenIdioms

/-! ### Warnings and the per-file batch loop -/

/-- A warning diagnostic printed to stderr, identified by the offending
file and, for a missing-fields warning, the missing field names. -/
inductive Warn where
  | missingFields (file : Str) (missing : List Str)
  | noCode (file : Str)
  | invalidYaml (file : Str)
  | notMapping (file : Str)
  deriving DecidableEq

/-- The shared shape of the generator loops: process the (already
filtered and sorted) files in order; a file that parses contributes its
serialized line and bumps the count, a rejected file contributes only
its warnings and the loop continues with the next file.  Returns
`(output bytes, count, warnings)`. -/
def runFiles (process : Str × κ → Option Str × List Warn) :
    List (Str × κ) → Str × Nat × List Warn
  | [] => ([], 0, [])
  | f :: rest =>
    let this := process f
    let acc := runFiles process rest
    match this.1 with
    | some line => (line ++ acc.1, acc.2.1 + 1, this.2 ++ acc.2.2)
    | none => (acc.1, acc.2.1, this.2 ++ acc.2.2)

/-- `sorted(...)` over a directory listing: Python sorts the filenames
lexicographically; the attached content rides along. -/
def sortFiles (files : List (Str × κ)) : List (Str × κ) :=
  List.insertionSort (fun a b => a.1 ≤ b.1) files

namespace GenIdioms

/-- Process one idiom file in the `generate_idioms` loop. -/
def processFile (f : Str × List Str) : Option Str × List Warn :=
  match parseStrudelFile f.2 with
  | .missingFields m => (none, [.missingFields f.1 m])
  | .noCode => (none, [.noCode f.1])
  | .ok r => (some (jdump (.jobj (idiomRecJson r)) ++ ['\n']), [])

/-- `generate_idioms`: filter the listing to `.strudel` files, sort, and
run the loop.  `files` pairs each filename of the source directory with
that file's lines. -/
def generateIdioms (files : List (Str × List Str)) : Str × Nat × List Warn :=
  runFiles processFile (sortFiles (files.filter (fun f => ".strudel".data.isSuffixOf f.1)))

end GenIdioms

/-! ### generate-snippets.py -/

namespace GenSnippets

/-- The metadata scan of `parse_snippet_file`: the same line classifier
as the idioms parser, but no `code_start` tracking — the body is never
captured. -/
def scanHeader : List Str → List (Str × Str) → List (Str × Str)
  | [], md => md
  | line :: rest, md =>
    if (pstrip line).isEmpty && md.isEmpty then scanHeader rest md
    else
      match parseMetaLine (pstrip line) with
      | some (k, v) => scanHeader rest (dset md k v)
      | none =>
        if startsSlashSlash (pstrip line) && md.isEmpty then scanHeader rest md
        else md

/-- The record `parse_snippet_file` returns on success. -/
structure SnippetRec where
  name : Str
  file : Str
  desc : Str
  tags : Option (List Str)
  deriving DecidableEq

/-- Outcome of `parse_snippet_file`: unlike the idioms parser there is
no empty-body rejection — the only failure path is a missing required
field. -/
inductive SnippetParse where
  | missingFields (missing : List Str)
  | ok (r : SnippetRec)
  deriving DecidableEq

/-- The required header fields of a snippet file. -/
def requiredFields : List Str := ["name".data, "desc".data]

/-- `parse_snippet_file`, given the file's basename and its lines. -/
def parseSnippetFile (fname : Str) (lines : List Str) : SnippetParse :=
  let md := scanHeader lines []
  let missing := requiredFields.filter (fun f => (dlookup f md).isNone)
  if !missing.isEmpty then .missingFields missing
  else
    let tags := match dlookup "tags".data md with
      | some tv => some (((splitComma tv).map pstrip).filter (fun t => !t.isEmpty))
      | none => none
    .ok { name := dget md "name".data [], file := fname, desc := dget md "desc".data [], tags }

/-- Truthiness of `record.get('tags')`: an absent value and an empty
list are both falsy. -/
def tagsTruthy : Option (List Str) → Bool
  | some l => !l.isEmpty
  | none => false

/-- The compact JSON record `generate_snippets` builds. -/
def snippetRecJson (r : SnippetRec) : List (Str × JVal) :=
  let r0 : List (Str × JVal) :=
    [("name".data, .jstr r.name), ("file".data, .jstr r.file), ("desc".data, .jstr r.desc)]
  match r.tags with
  | some l => if !l.isEmpty then dset r0 "tags".data (.jarr (l.map .jstr)) else r0
  | none => r0

/-- Process one snippet file in the `generate_snippets` loop. -/
def processFile (f : Str × List Str) : Option Str × List Warn :=
  match parseSnippetFile f.1 f.2 with
  | .missingFields m => (none, [.missingFields f.1 m])
  | .ok r => (some (jdump (.jobj (snippetRecJson r)) ++ ['\n']), [])

/-- `generate_snippets`: filter the listing to `.strudel` and `.str`
files, sort, and run the loop. -/
def generateSnippets (files : List (Str × List Str)) : Str × Nat × List Warn :=
  runFiles processFile (sortFiles (files.filter
    (fun f => ".strudel".data.isSuffixOf f.1 || ".str".data.isSuffixOf f.1)))

end GenSnippets

/-! ### generate-anti-patterns.py -/

namespace GenAnti

/-- A YAML scalar/collection value as `yaml.safe_load` produces it. -/
inductive YVal where
  | ystr : Str → YVal
  | yint : Int → YVal
  | ybool : Bool → YVal
  | ynull : YVal
  | ylist : List YVal → YVal
  | ymap : List (Str × YVal) → YVal

/-- Python falsiness of a YAML value (`not data[f]`). -/
def yFalsy : YVal → Bool
  | .ystr s => s.isEmpty
  | .yint i => i == 0
  | .ybool b => !b
  | .ynull => true
  | .ylist l => l.isEmpty
  | .ymap m => m.isEmpty

mutual

/-- Python `str(v)` for a YAML value: strings pass through unchanged,
scalars print their canonical form, collections print their `repr`
(elements repr-quoted, separated by a comma and a space). -/
def ystrPy : YVal → Str
  | .ystr s => s
  | .yint i => intStr i
  | .ybool b => if b then "True".data else "False".data
  | .ynull => "None".data
  | .ylist l => '[' :: yreprList l ++ [']']
  | .ymap m => '{' :: yreprMap m ++ ['}']

/-- Python `repr(v)` for a YAML value (strings rendered in the
single-quote form, exact for strings containing no quote or escape
characters). -/
def yreprPy : YVal → Str
  | .ystr s => Char.ofNat 39 :: s ++ [Char.ofNat 39]
  | .yint i => intStr i
  | .ybool b => if b then "True".data else "False".data
  | .ynull => "None".data
  | .ylist l => '[' :: yreprList l ++ [']']
  | .ymap m => '{' :: yreprMap m ++ ['}']

/-- The comma-and-space separated element reprs of a Python list. -/
def yreprList : List YVal → Str
  | [] => []
  | [v] => yreprPy v
  | v :: rest => yreprPy v ++ ',' :: ' ' :: yreprList rest

/-- The comma-and-space separated `key: value` repr pairs of a Python
dict. -/
def yreprMap : List (Str × YVal) → Str
  | [] => []
  | [(k, v)] => yreprPy (.ystr k) ++ ':' :: ' ' :: yreprPy v
  | (k, v) :: rest => yreprPy (.ystr k) ++ ':' :: ' ' :: yreprPy v ++ ',' :: ' ' :: yreprMap rest

end

/-- `data[f].rstrip() if isinstance(data[f], str) else str(data[f])`. -/
def yFieldStr : YVal → Str
  | .ystr s => rstripS s
  | v => ystrPy v

/-- `filename.rsplit('.', 1)[0]`: the part before the last dot, or the
whole name when it contains no dot. -/
def stemOf (f : Str) : Str :=
  match f.reverse.dropWhile (fun c => !(c == '.')) with
  | [] => f
  | _ :: t => t.reverse

/-- Outcome of `parse_yaml_file`. -/
inductive AntiParse where
  | invalidYaml
  | notMapping
  | missingFields (missing : List Str)
  | ok (r : List (Str × JVal))

/-- The required fields of an anti-pattern document. -/
def requiredFields : List Str := ["bad".data, "why".data, "good".data]

/-- `parse_yaml_file`, given the file's basename and the result of
`yaml.safe_load` (`none` models a `YAMLError`). -/
def parseYamlFile (fname : Str) (doc : Option YVal) : AntiParse :=
  match doc with
  | none => .invalidYaml
  | some (.ymap d) =>
    let missing := requiredFields.filter (fun f =>
      match dlookup f d with
      | none => true
      | some v => yFalsy v)
    if !missing.isEmpty then .missingFields missing
    else
      .ok [("id".data, .jstr (stemOf fname)),
           ("bad".data, .jstr (yFieldStr (dget d "bad".data .ynull))),
           ("why".data, .jstr (yFieldStr (dget d "why".data .ynull))),
           ("good".data, .jstr (yFieldStr (dget d "good".data .ynull)))]
  | some _ => .notMapping

/-- Process one anti-pattern file in the `generate_anti_patterns` loop. -/
def processFile (f : Str × Option YVal) : Option Str × List Warn :=
  match parseYamlFile f.1 f.2 with
  | .invalidYaml => (none, [.invalidYaml f.1])
  | .notMapping => (none, [.notMapping f.1])
  | .missingFields m => (none, [.missingFields f.1 m])
  | .ok r => (some (jdump (.jobj r) ++ ['\n']), [])

/-- `generate_anti_patterns`: filter the listing to `.yaml` files, sort,
and run the loop. -/
def generateAntiPatterns (files : List (Str × Option YVal)) : Str × Nat × List Warn :=
  runFiles processFile (sortFiles (files.filter (fun f => ".yaml".data.isSuffixOf f.1)))

end GenAnti

/-! ### generate-data.py -/

namespace GenData

/-- Concatenate the serialized records of a JSONL file, one per line. -/
def jsonlBytes (recs : List (List (Str × JVal))) : Str :=
  (recs.map (fun r => jdump (.jobj r) ++ ['\n'])).flatten

/-- Add `rec[kout] = info[k]` when `info.get(k)` is truthy, as the
`if info.get(k): rec[kout] = info[k]` lines do. -/
def addIfTruthy (info : List (Str × JVal)) (r : List (Str × JVal)) (k kout : Str) :
    List (Str × JVal) :=
  match dlookup k info with
  | some v => if jTruthy v then dset r kout v else r
  | none => r

/-- One function record of `generate_functions`. -/
def functionRecord (cat : Str) (fn : List (Str × JVal)) : List (Str × JVal) :=
  let r0 : List (Str × JVal) := [("name".data, dget fn "name".data .jnull), ("cat".data, .jstr cat)]
  let r1 := addIfTruthy fn r0 "description".data "desc".data
  let r2 := addIfTruthy fn r1 "synonyms".data "synonyms".data
  let r3 := addIfTruthy fn r2 "parameters".data "params".data
  addIfTruthy fn r3 "examples".data "examples".data

/-- `generate_functions`: one record per function, categories in
document order. -/
def generateFunctions (categories : List (Str × List (List (Str × JVal)))) :
    List (List (Str × JVal)) :=
  categories.flatMap (fun c => c.2.map (functionRecord c.1))

/-- `_write_sound_category`: one record for a small sound category. -/
def writeSoundCategory (cat : Str) (info : List (Str × JVal)) : List (Str × JVal) :=
  let r0 : List (Str × JVal) :=
    [("cat".data, .jstr cat), ("desc".data, dget info "description".data (.jstr []))]
  let r1 := addIfTruthy info r0 "names".data "names".data
  let r2 := addIfTruthy info r1 "aliases".data "aliases".data
  let r3 := addIfTruthy info r2 "sampleCounts".data "sampleCounts".data
  addIfTruthy info r3 "noteCount".data "noteCount".data

/-- The fields of the `drumMachines` category that
`_write_drum_machines` reads, in their schema types. -/
structure DrumInfo where
  description : Str
  machines : List Str
  suffixes : List JVal
  sampleCounts : List (Str × JVal)
  names : List Str

/-- `name.split('_', 1)[0]`: the machine prefix of a compound sound
name — everything before the first underscore, or the whole name when
there is none. -/
def machineOf (name : Str) : Str := name.takeWhile (fun c => !(c == '_'))

/-- One step of the `for name in names` loop building `machine_sounds`:
create the machine's dict when absent, then
`machine_sounds[machine][name] = sample_counts.get(name, 1)`. -/
def msAdd (counts : List (Str × JVal)) (acc : List (Str × List (Str × JVal))) (name : Str) :
    List (Str × List (Str × JVal)) :=
  let machine := machineOf name
  let acc1 := if (dlookup machine acc).isSome then acc else acc ++ [(machine, [])]
  dset acc1 machine (dset (dget acc1 machine []) name (dget counts name (.jint 1)))

/-- The full `machine_sounds` mapping: machine prefix → that machine's
name→count dict. -/
def machineSounds (info : DrumInfo) : List (Str × List (Str × JVal)) :=
  info.names.foldl (msAdd info.sampleCounts) []

/-- The header record of the `drumMachines` category. -/
def drumHeaderRecord (info : DrumInfo) : List (Str × JVal) :=
  [("cat".data, .jstr "drumMachines".data),
   ("desc".data, .jstr info.description),
   ("machines".data, .jarr (info.machines.map .jstr)),
   ("suffixes".data, .jarr info.suffixes)]

/-- The per-machine records of `_write_drum_machines`: one record per
machine of the `machines` list whose sounds dict is non-empty. -/
def drumMachineRecords (info : DrumInfo) : List (List (Str × JVal)) :=
  let ms := machineSounds info
  info.machines.filterMap (fun machine =>
    let sounds := dget ms machine []
    if !sounds.isEmpty then
      some [("cat".data, .jstr "drumMachines".data),
            ("machine".data, .jstr machine),
            ("sounds".data, .jobj sounds)]
    else none)

/-- All records `_write_drum_machines` writes, header first. -/
def writeDrumMachines (info : DrumInfo) : List (List (Str × JVal)) :=
  drumHeaderRecord info :: drumMachineRecords info

/-- The union (in emission order) of the per-instrument `sounds`
mappings over all per-machine records `_write_drum_machines` emits. -/
def soundsUnion (info : DrumInfo) : List (Str × JVal) :=
  (drumMachineRecords info).flatMap (fun r =>
    match dlookup "sounds".data r with
    | some (.jobj s) => s
    | _ => [])

/-- The per-machine sounds dicts actually emitted for the machines of
`L`, in order: the dict of each machine whose sounds are non-empty. -/
def emittedMachineSounds (info : DrumInfo) (L : List Str) : List (List (Str × JVal)) :=
  L.filterMap (fun machine =>
    if !(dget (machineSounds info) machine []).isEmpty
    then some (dget (machineSounds info) machine []) else none)

/-- The invariant of the `machine_sounds` accumulator after the names
in `processed` have been folded in: machine keys are duplicate-free,
each machine's dict is a non-empty duplicate-free mapping holding
exactly the processed names with that machine prefix (with their
recorded sample count, default 1), and machines without a dict have no
processed name. -/
def MSInv (counts : List (Str × JVal)) (processed : List Str)
    (acc : List (Str × List (Str × JVal))) : Prop :=
  (acc.map Prod.fst).Nodup
  ∧ (∀ m d, dlookup m acc = some d →
      (d.map Prod.fst).Nodup ∧ d ≠ []
      ∧ (∀ n c, (n, c) ∈ d ↔
          (n ∈ processed ∧ machineOf n = m ∧ c = dget counts n (.jint 1))))
  ∧ (∀ m, dlookup m acc = none → ∀ n ∈ processed, machineOf n ≠ m)

/-- `_write_drum_aliases`. -/
def writeDrumAliases (info : List (Str × JVal)) : List (Str × JVal) :=
  let r0 : List (Str × JVal) :=
    [("cat".data, .jstr "drumMachineAliases".data),
     ("desc".data, dget info "description".data (.jstr []))]
  let r1 := addIfTruthy info r0 "aliasMap".data "aliasMap".data
  addIfTruthy info r1 "generatedNames".data "generatedNames".data

/-- Read the typed `drumMachines` fields out of the raw category
object, per the documented schema of `sounds.json`. -/
def drumInfoOf (info : List (Str × JVal)) : DrumInfo where
  description := match dlookup "description".data info with
    | some (.jstr s) => s
    | _ => []
  machines := match dlookup "machines".data info with
    | some (.jarr l) => l.filterMap (fun v => match v with | .jstr s => some s | _ => none)
    | _ => []
  suffixes := match dlookup "suffixes".data info with
    | some (.jarr l) => l
    | _ => []
  sampleCounts := match dlookup "sampleCounts".data info with
    | some (.jobj m) => m
    | _ => []
  names := match dlookup "names".data info with
    | some (.jarr l) => l.filterMap (fun v => match v with | .jstr s => some s | _ => none)
    | _ => []

/-- `generate_sounds`: visit the categories in document order,
dispatching the two special category names. -/
def generateSounds (categories : List (Str × List (Str × JVal))) :
    List (List (Str × JVal)) :=
  categories.flatMap (fun c =>
    if c.1 = "drumMachines".data then writeDrumMachines (drumInfoOf c.2)
    else if c.1 = "drumMachineAliases".data then [writeDrumAliases c.2]
    else [writeSoundCategory c.1 c.2])

/-- One record of `generate_mini_notation`. -/
def miniTokenRecord (tok : List (Str × JVal)) : List (Str × JVal) :=
  let r0 : List (Str × JVal) :=
    [("token".data, dget tok "token".data .jnull),
     ("meaning".data, dget tok "meaning".data .jnull),
     ("desc".data, dget tok "description".data (.jstr []))]
  addIfTruthy tok r0 "example".data "example".data

/-- `generate_mini_notation`. -/
def generateMiniNotation (tokens : List (List (Str × JVal))) : List (List (Str × JVal)) :=
  tokens.map miniTokenRecord

/-- The three required documentation-extraction inputs, in the order
`main` validates them. -/
def requiredSubPaths : List Str :=
  ["api/output/functions.json".data,
   "soundbank/output/sounds.json".data,
   "patterns/output/patterns.json".data]

/-- Outcome of `main` in generate-data.py: either an abort naming the
first missing required input, or the list of `(filename, bytes)`
outputs written. -/
inductive DataResult where
  | errMissing (path : Str)
  | ok (writes : List (Str × Str))

/-- The output files `main` writes when no input is missing. -/
def dataWritesOf (r : DataResult) : List (Str × Str) :=
  match r with
  | .errMissing _ => []
  | .ok w => w

/-- `main` of generate-data.py: `isfile` tells which paths exist under
the source directory; the three parsed documents supply the data. -/
def dataMain (isfile : Str → Bool)
    (fnCategories : List (Str × List (List (Str × JVal))))
    (sndCategories : List (Str × List (Str × JVal)))
    (tokens : List (List (Str × JVal))) : DataResult :=
  match requiredSubPaths.find? (fun p => !isfile p) with
  | some p => .errMissing p
  | none =>
      .ok [("functions.jsonl".data, jsonlBytes (generateFunctions fnCategories)),
           ("sounds.jsonl".data, jsonlBytes (generateSounds sndCategories)),
           ("mini-notation.jsonl".data, jsonlBytes (generateMiniNotation tokens))]

end GenData

/-! ### merge-mini-notation-rewrites.py -/

namespace MergeRewrites

/-- `data/mini-notation.jsonl`, the overlay target. -/
def miniPath : Str := "data/mini-notation.jsonl".data

/-- `data/mini-notation-rewrites.json`, the overlay patch document. -/
def rewritesPath : Str := "data/mini-notation-rewrites.json".data

/-- The patch matching one record: `token = rec.get('token', '')`, then
`token in rewrites` — only a string token can equal one of the patch
document's (string) keys. -/
def recPatch (rewrites : List (Str × JVal)) (r : List (Str × JVal)) : Option JVal :=
  match dget r "token".data (.jstr []) with
  | .jstr s => dlookup s rewrites
  | _ => none

/-- Merge the patches into one record: `rec['rewrites'] = rewrites[token]`
when the token matches, the record untouched otherwise. -/
def mergeRecord (rewrites : List (Str × JVal)) (r : List (Str × JVal)) : List (Str × JVal) :=
  match recPatch rewrites r with
  | some payload => dset r "rewrites".data payload
  | none => r

/-- Outcome of `main` in merge-mini-notation-rewrites.py. -/
inductive MergeResult where
  | errMissing (path : Str)
  | noRewrites
  | written (recs : List (List (Str × JVal))) (mergedCount : Nat)

/-- `rewrites_data.get('rewrites', {})`: the patch mapping of the
overlay document — `{}` when the key is absent (the declared overlay
schema makes a present value a JSON object). -/
def extractRewrites (rewritesDoc : List (Str × JVal)) : List (Str × JVal) :=
  match dlookup "rewrites".data rewritesDoc with
  | some (.jobj m) => m
  | _ => []

/-- `main`: existence checks, the empty-overlay early return, then the
in-memory merge of every record followed by the rewrite of the file.
`records` is the parsed content of `mini-notation.jsonl` (one JSON
object per non-blank line). -/
def mergeMain (miniExists rewritesExists : Bool) (rewritesDoc : List (Str × JVal))
    (records : List (List (Str × JVal))) : MergeResult :=
  if !miniExists then .errMissing miniPath
  else if !rewritesExists then .errMissing rewritesPath
  else
    let rewrites := extractRewrites rewritesDoc
    if rewrites.isEmpty then .noRewrites
    else
      .written (records.map (mergeRecord rewrites))
        ((records.filter (fun r => (recPatch rewrites r).isSome)).length)

/-- The bytes `main` writes back over `mini-notation.jsonl`, when it
writes at all. -/
def mergeWrites (r : MergeResult) : Option Str :=
  match r with
  | .errMissing _ => none
  | .noRewrites => none
  | .written recs _ => some (GenData.jsonlBytes recs)

end MergeRewrites

/-! ### Derived definitions used in statements -/

/-- The metadata mapping accumulated over a run of lines, each handled
exactly as the scanners handle it: a regex match inserts its pair, any
other line inserts nothing. -/
def mdScan : List (Str × Str) → List Str → List (Str × Str)
  | md, [] => md
  | md, l :: rest =>
    match parseMetaLine (pstrip l) with
    | some (k, v) => mdScan (dset md k v) rest
    | none => mdScan md rest

/-- Drop trailing fully-blank lines only (the second `while ... pop`
loop of `parse_strudel_file`). -/
def rstripBlank (ls : List Str) : List Str :=
  (ls.reverse.dropWhile blankL).reverse

/-! ## Helper lemmas: association-list dictionaries -/

theorem dlookup_cons (k k' : Str) (v : α) (t : List (Str × α)) :
    dlookup k ((k', v) :: t) = if k' = k then some v else dlookup k t := rfl

theorem dlookup_append_some (k : Str) {d1 : List (Str × α)} (d2 : List (Str × α)) {v : α}
    (h : dlookup k d1 = some v) : dlookup k (d1 ++ d2) = some v := by
  induction d1 with
  | nil => exact absurd h (by simp [dlookup])
  | cons p t ih =>
    obtain ⟨k1, v1⟩ := p
    rw [dlookup_cons] at h
    rw [List.cons_append, dlookup_cons]
    by_cases hk : k1 = k
    · rwa [if_pos hk] at h ⊢
    · rw [if_neg hk] at h ⊢
      exact ih h

theorem dlookup_append_none (k : Str) {d1 : List (Str × α)} (d2 : List (Str × α))
    (h : dlookup k d1 = none) : dlookup k (d1 ++ d2) = dlookup k d2 := by
  induction d1 with
  | nil => rfl
  | cons p t ih =>
    obtain ⟨k1, v1⟩ := p
    rw [dlookup_cons] at h
    rw [List.cons_append, dlookup_cons]
    by_cases hk : k1 = k
    · rw [if_pos hk] at h; exact absurd h (by simp)
    · rw [if_neg hk] at h
      rw [if_neg hk]
      exact ih h

theorem dlookup_eq_none_iff (k : Str) (d : List (Str × α)) :
    dlookup k d = none ↔ k ∉ d.map Prod.fst := by
  induction d with
  | nil => simp [dlookup]
  | cons p t ih =>
    obtain ⟨k1, v1⟩ := p
    rw [dlookup_cons, List.map_cons, List.mem_cons]
    by_cases hk : k1 = k
    · rw [if_pos hk]
      constructor
      · intro h; exact absurd h (by simp)
      · intro h; exact absurd (Or.inl hk.symm) h
    · rw [if_neg hk, ih]
      constructor
      · intro h hc
        rcases hc with hc | hc
        · exact hk hc.symm
        · exact h hc
      · intro h hc
        exact h (Or.inr hc)

/-- The in-place overwrite map of `dset` does not change lookups at
other keys. -/
theorem dlookup_overwrite_ne (k k' : Str) (v : α) (h : k' ≠ k) :
    ∀ t : List (Str × α),
      dlookup k' (t.map (fun p => if p.1 = k then (k, v) else p)) = dlookup k' t := by
  intro t
  induction t with
  | nil => rfl
  | cons p t ih =>
    obtain ⟨k1, v1⟩ := p
    rw [List.map_cons]
    by_cases hk : k1 = k
    · have h1 : ((k1, v1).1 = k) = True := by simp [hk]
      rw [show ((if (k1, v1).1 = k then (k, v) else (k1, v1))) = (k, v) by simp [hk]]
      rw [dlookup_cons, dlookup_cons, if_neg (Ne.symm h), if_neg (by rw [hk]; exact Ne.symm h), ih]
    · rw [show ((if (k1, v1).1 = k then (k, v) else (k1, v1))) = (k1, v1) by simp [hk]]
      rw [dlookup_cons, dlookup_cons, ih]

/-- The in-place overwrite map of `dset` rewrites the looked-up value at
the overwritten key. -/
theorem dlookup_overwrite_self (k : Str) (v : α) :
    ∀ t : List (Str × α), (dlookup k t).isSome →
      dlookup k (t.map (fun p => if p.1 = k then (k, v) else p)) = some v := by
  intro t
  induction t with
  | nil => intro h; exact absurd h (by simp [dlookup])
  | cons p t ih =>
    intro h
    obtain ⟨k1, v1⟩ := p
    rw [List.map_cons]
    by_cases hk : k1 = k
    · rw [show ((if (k1, v1).1 = k then (k, v) else (k1, v1))) = (k, v) by simp [hk]]
      rw [dlookup_cons, if_pos rfl]
    · rw [show ((if (k1, v1).1 = k then (k, v) else (k1, v1))) = (k1, v1) by simp [hk]]
      rw [dlookup_cons, if_neg hk]
      rw [dlookup_cons, if_neg hk] at h
      exact ih h

theorem dlookup_dset_self (d : List (Str × α)) (k : Str) (v : α) :
    dlookup k (dset d k v) = some v := by
  unfold dset
  split
  · rename_i h
    exact dlookup_overwrite_self k v d h
  · rename_i h
    rw [Option.not_isSome_iff_eq_none] at h
    rw [dlookup_append_none k _ h, dlookup_cons, if_pos rfl]

theorem dlookup_dset_ne (d : List (Str × α)) (k k' : Str) (v : α) (h : k' ≠ k) :
    dlookup k' (dset d k v) = dlookup k' d := by
  unfold dset
  split
  · exact dlookup_overwrite_ne k k' v h d
  · cases hd : dlookup k' d with
    | some w => exact dlookup_append_some k' _ hd
    | none =>
      rw [dlookup_append_none k' _ hd, dlookup_cons, if_neg (Ne.symm h)]
      rfl

theorem dset_ne_nil (d : List (Str × α)) (k : Str) (v : α) : dset d k v ≠ [] := by
  unfold dset
  split
  · rename_i h
    cases d with
    | nil => exact absurd h (by simp [dlookup])
    | cons p t => simp
  · simp

theorem mem_dset (d : List (Str × α)) (k : Str) (v : α) (p : Str × α)
    (h : p ∈ dset d k v) : p ∈ d ∨ p = (k, v) := by
  unfold dset at h
  split at h
  · rcases List.mem_map.mp h with ⟨q, hq, he⟩
    by_cases hk : q.1 = k
    · right; rw [if_pos hk] at he; exact he.symm
    · left; rw [if_neg hk] at he; exact he ▸ hq
  · rcases List.mem_append.mp h with h1 | h1
    · exact Or.inl h1
    · right; simpa using h1

theorem dset_keys_present (d : List (Str × α)) (k : Str) (v : α)
    (h : (dlookup k d).isSome) :
    (dset d k v).map Prod.fst = d.map Prod.fst := by
  unfold dset
  rw [if_pos h]
  clear h
  induction d with
  | nil => rfl
  | cons p t ih =>
    obtain ⟨k1, v1⟩ := p
    rw [List.map_cons, List.map_cons, List.map_cons]
    by_cases hk : k1 = k
    · rw [show ((if (k1, v1).1 = k then (k, v) else (k1, v1))) = (k, v) by simp [hk]]
      rw [ih]
      simp [hk]
    · rw [show ((if (k1, v1).1 = k then (k, v) else (k1, v1))) = (k1, v1) by simp [hk]]
      exact congrArg (fun l => (k1, v1).1 :: l) ih

theorem dset_keys_absent (d : List (Str × α)) (k : Str) (v : α)
    (h : dlookup k d = none) :
    (dset d k v).map Prod.fst = d.map Prod.fst ++ [k] := by
  unfold dset
  rw [if_neg (by simp [h])]
  simp

theorem dset_length_present (d : List (Str × α)) (k : Str) (v : α)
    (h : (dlookup k d).isSome) :
    (dset d k v).length = d.length := by
  have h1 := congrArg List.length (dset_keys_present d k v h)
  simpa using h1

theorem dset_absent_eq_append (d : List (Str × α)) (k : Str) (v : α)
    (h : dlookup k d = none) :
    dset d k v = d ++ [(k, v)] := by
  unfold dset
  rw [if_neg (by simp [h])]

theorem dlookup_mem (k : Str) (v : α) (d : List (Str × α)) (h : dlookup k d = some v) :
    (k, v) ∈ d := by
  induction d with
  | nil => exact absurd h (by simp [dlookup])
  | cons p t ih =>
    obtain ⟨k1, v1⟩ := p
    rw [dlookup_cons] at h
    by_cases hk : k1 = k
    · rw [if_pos hk] at h
      have hv : v1 = v := by injection h
      rw [← hk, ← hv]
      exact List.mem_cons_self _ _
    · rw [if_neg hk] at h
      exact List.mem_cons_of_mem _ (ih h)

theorem mem_dlookup (k : Str) (v : α) (d : List (Str × α))
    (hnd : (d.map Prod.fst).Nodup) (h : (k, v) ∈ d) : dlookup k d = some v := by
  induction d with
  | nil => simp at h
  | cons p t ih =>
    obtain ⟨k1, v1⟩ := p
    rw [List.map_cons, List.nodup_cons] at hnd
    rcases List.mem_cons.mp h with he | ht
    · have hk : k1 = k := congrArg Prod.fst he.symm
      have hv : v1 = v := congrArg Prod.snd he.symm
      rw [dlookup_cons, if_pos hk, hv]
    · have hk : k1 ≠ k := by
        intro hk
        exact hnd.1 (hk ▸ List.mem_map.mpr ⟨(k, v), ht, rfl⟩)
      rw [dlookup_cons, if_neg hk]
      exact ih hnd.2 ht

theorem dset_keys_nodup (d : List (Str × α)) (k : Str) (v : α)
    (hnd : (d.map Prod.fst).Nodup) : ((dset d k v).map Prod.fst).Nodup := by
  cases h : dlookup k d with
  | some w => rw [dset_keys_present d k v (by simp [h])]; exact hnd
  | none =>
    rw [dset_keys_absent d k v h]
    have hmem : k ∉ d.map Prod.fst := (dlookup_eq_none_iff k d).mp h
    simp [List.nodup_append, hmem, hnd]

theorem mem_dset_iff (d : List (Str × α)) (k : Str) (v : α) (p : Str × α)
    (hnd : (d.map Prod.fst).Nodup) :
    p ∈ dset d k v ↔ ((p.1 ≠ k ∧ p ∈ d) ∨ p = (k, v)) := by
  constructor
  · intro h
    rcases mem_dset d k v p h with h1 | h1
    · by_cases hk : p.1 = k
      · right
        obtain ⟨pk, pv⟩ := p
        have hk2 : pk = k := hk
        have hlk := mem_dlookup pk pv _ (dset_keys_nodup d k v hnd) h
        rw [hk2, dlookup_dset_self] at hlk
        have hv : v = pv := by injection hlk
        rw [hk2, ← hv]
      · exact Or.inl ⟨hk, h1⟩
    · exact Or.inr h1
  · intro h
    rcases h with ⟨hne, hmem⟩ | he
    · unfold dset
      split
      · exact List.mem_map.mpr ⟨p, hmem, by rw [if_neg hne]⟩
      · exact List.mem_append.mpr (Or.inl hmem)
    · subst he
      exact dlookup_mem k v _ (dlookup_dset_self d k v)

/-! ## Helper lemmas: stripping whitespace -/

theorem head_dropWhile (p : Char → Bool) :
    ∀ (l : Str) {c : Char} {t : Str}, l.dropWhile p = c :: t → p c = false := by
  intro l
  induction l with
  | nil => intro c t h; simp at h
  | cons a l ih =>
    intro c t h
    rw [List.dropWhile_cons] at h
    by_cases ha : p a
    · rw [if_pos ha] at h
      exact ih h
    · rw [if_neg ha] at h
      have : a = c := (List.cons.injEq _ _ _ _ ▸ h).1
      rw [← this]
      exact Bool.eq_false_iff.mpr ha

theorem dropWhile_dropWhile (p : Char → Bool) (l : Str) :
    (l.dropWhile p).dropWhile p = l.dropWhile p := by
  cases h : l.dropWhile p with
  | nil => rfl
  | cons c t =>
    rw [List.dropWhile_cons, if_neg (by rw [head_dropWhile p l h]; simp)]

theorem length_dropWhile_le' (p : Char → Bool) (l : Str) :
    (l.dropWhile p).length ≤ l.length := by
  have h := congrArg List.length (List.takeWhile_append_dropWhile p l)
  rw [List.length_append] at h
  omega

theorem rstripS_idem (l : Str) : rstripS (rstripS l) = rstripS l := by
  unfold rstripS
  rw [List.reverse_reverse, dropWhile_dropWhile]

theorem rstripS_head (l : Str) {c : Char} {t : Str} (h : rstripS l = c :: t) :
    ∃ t0, l = c :: t0 := by
  unfold rstripS at h
  have hd : l.reverse.dropWhile wsB = t.reverse ++ [c] := by
    have := congrArg List.reverse h
    rwa [List.reverse_reverse, List.reverse_cons] at this
  have hsplit := List.takeWhile_append_dropWhile wsB l.reverse
  rw [hd] at hsplit
  refine ⟨t ++ (l.reverse.takeWhile wsB).reverse, ?_⟩
  have h2 := congrArg List.reverse hsplit
  rw [List.reverse_reverse] at h2
  conv_lhs => rw [← h2]
  simp

theorem rstripS_pstrip (l : Str) : rstripS (pstrip l) = pstrip l := by
  unfold pstrip
  exact rstripS_idem _

theorem pstrip_idem (l : Str) : pstrip (pstrip l) = pstrip l := by
  conv_lhs => rw [pstrip]
  have hdw : (pstrip l).dropWhile wsB = pstrip l := by
    cases h : pstrip l with
    | nil => rfl
    | cons c t =>
      unfold pstrip at h
      obtain ⟨t0, ht0⟩ := rstripS_head _ h
      have hc : wsB c = false := head_dropWhile wsB l ht0
      rw [List.dropWhile_cons, if_neg (by rw [hc]; simp)]
  rw [hdw]
  exact rstripS_pstrip l

theorem rstripS_tail {c : Char} {t : Str} (h : rstripS (c :: t) = c :: t) :
    rstripS t = t := by
  cases hr : t.reverse with
  | nil =>
    have : t = [] := by simpa using congrArg List.reverse hr
    rw [this]; rfl
  | cons a rt =>
    cases hws : wsB a with
    | false =>
      unfold rstripS
      rw [hr, List.dropWhile_cons, if_neg (by rw [hws]; simp), ← hr, List.reverse_reverse]
    | true =>
      exfalso
      have hrev : (c :: t).reverse = a :: (rt ++ [c]) := by
        rw [List.reverse_cons, hr]; rfl
      have hlen : (rstripS (c :: t)).length ≤ t.length := by
        unfold rstripS
        rw [hrev, List.dropWhile_cons, if_pos (by rw [hws])]
        have h1 := length_dropWhile_le' wsB (rt ++ [c])
        have h2 : rt.length + 1 = t.length := by
          have := congrArg List.length hr
          simp at this
          omega
        simp only [List.length_reverse]
        simp [List.length_append] at h1 ⊢
        omega
      rw [h] at hlen
      simp at hlen

theorem rstripS_dropWhile (p : Char → Bool) :
    ∀ l : Str, rstripS l = l → rstripS (l.dropWhile p) = l.dropWhile p := by
  intro l
  induction l with
  | nil => intro _; rfl
  | cons a t ih =>
    intro h
    rw [List.dropWhile_cons]
    by_cases ha : p a
    · rw [if_pos ha]
      exact ih (rstripS_tail h)
    · rw [if_neg ha]
      exact h

theorem allWs_rstripS_nil (l : Str) (h : ∀ c ∈ l, wsB c) : rstripS l = [] := by
  unfold rstripS
  rw [List.dropWhile_eq_nil_iff.mpr (by intro x hx; exact h x (List.mem_reverse.mp hx))]
  rfl

theorem rstripS_cons_ne {c : Char} (t : Str) (hc : wsB c = false) :
    rstripS (c :: t) ≠ [] := by
  intro h
  unfold rstripS at h
  have : c :: t = [] := by
    have h2 : (c :: t).reverse.dropWhile wsB = [] := by
      have := congrArg List.reverse h
      simpa using this
    have hall := List.dropWhile_eq_nil_iff.mp h2
    have : wsB c = true := hall c (by simp)
    rw [hc] at this
    exact absurd this (by simp)
  simp at this

theorem pstrip_cons_nonWs {c : Char} (t : Str) (hc : wsB c = false) :
    pstrip (c :: t) = rstripS (c :: t) ∧ pstrip (c :: t) ≠ [] := by
  unfold pstrip
  rw [List.dropWhile_cons, if_neg (by rw [hc]; simp)]
  exact ⟨rfl, rstripS_cons_ne t hc⟩

theorem rstripS_append_nonWs (u : Str) {c : Char} (hc : wsB c = false) :
    rstripS (u ++ [c]) = u ++ [c] := by
  unfold rstripS
  rw [List.reverse_append, List.reverse_cons, List.reverse_nil, List.nil_append,
    List.cons_append, List.nil_append, List.dropWhile_cons, if_neg (by rw [hc]; simp)]
  simp

theorem dropWhile_append_all (p : Char → Bool) :
    ∀ (w : Str) {y : Char} (ys : Str), (∀ c ∈ w, p c) → p y = false →
      (w ++ y :: ys).dropWhile p = y :: ys := by
  intro w
  induction w with
  | nil =>
    intro y ys _ hy
    rw [List.nil_append, List.dropWhile_cons, if_neg (by rw [hy]; simp)]
  | cons a w ih =>
    intro y ys hall hy
    rw [List.cons_append, List.dropWhile_cons,
      if_pos (by rw [hall a (List.mem_cons_self a w)])]
    exact ih ys (fun c hc => hall c (List.mem_cons_of_mem a hc)) hy

/-! ## Helper lemmas: the metadata-line regex -/

/-- Every value the regex yields is non-empty and strip-fixed, provided
the matched line carries no trailing whitespace — which holds whenever
the line is the result of `line.strip()`, as it is in both header
scanners. -/
theorem parseMeta_val {s k v : Str} (hs : rstripS s = s)
    (h : parseMetaLine s = some (k, v)) : v ≠ [] ∧ pstrip v = v := by
  unfold parseMetaLine at h
  split at h
  · rename_i r1
    -- s = '/' :: '/' :: r1
    split at h
    · rename_i r3 heq1
      -- r1.dropWhile wsB = '@' :: r3
      split at h
      · rename_i rest heq2
        -- r3.dropWhile wordB = ':' :: rest
        by_cases hwE : (r3.takeWhile wordB).isEmpty
        · rw [if_pos hwE] at h
          exact absurd h (by simp)
        · rw [if_neg hwE] at h
          split at h
          · rename_i g2 heq3
            have hv : v = pstrip g2 := by
              injection h with h1
              injection h1 with h2 h3
              exact h3.symm
            -- the remainder after the colon carries no trailing whitespace
            have n1 : rstripS r1 = r1 := rstripS_tail (rstripS_tail hs)
            have n2 : rstripS ('@' :: r3) = '@' :: r3 := by
              rw [← heq1]; exact rstripS_dropWhile wsB r1 n1
            have n3 : rstripS r3 = r3 := rstripS_tail n2
            have n4 : rstripS (':' :: rest) = ':' :: rest := by
              rw [← heq2]; exact rstripS_dropWhile wordB r3 n3
            have n5 : rstripS rest = rest := rstripS_tail n4
            unfold metaRest at heq3
            cases hdw : rest.dropWhile wsB with
            | cons c t =>
              -- group 2 starts after the whitespace run: its head is non-ws
              rw [hdw] at heq3
              simp only [List.isEmpty_cons, Bool.not_false, if_true] at heq3
              have hc : wsB c = false := head_dropWhile wsB rest hdw
              have hg : c :: t = g2 := by injection heq3
              rw [hv, ← hg]
              exact ⟨(pstrip_cons_nonWs t hc).2, pstrip_idem _⟩
            | nil =>
              -- backtracking case: everything after the colon is whitespace;
              -- impossible on a trailing-whitespace-free line
              exfalso
              have hall : ∀ c ∈ rest, wsB c := List.dropWhile_eq_nil_iff.mp hdw
              have hnil : rest = [] := by rw [← n5]; exact allWs_rstripS_nil rest hall
              rw [hnil] at hdw heq3
              simp [metaRest] at heq3
          · exact absurd h (by simp)
      · exact absurd h (by simp)
    · exact absurd h (by simp)
  · exact absurd h (by simp)

/-- A successfully matched metadata line starts with `//`, so its
stripped form is never empty. -/
theorem parseMeta_some_shape {s : Str} {kv : Str × Str}
    (h : parseMetaLine s = some kv) : ∃ r, s = '/' :: '/' :: r := by
  unfold parseMetaLine at h
  split at h
  · rename_i r1
    exact ⟨r1, rfl⟩
  · exact absurd h (by simp)

/-! ## Helper lemmas: the two header scanners -/

namespace GenIdioms

theorem scanHeader_nil (i : Nat) (md : List (Str × Str)) (cs : Nat) :
    scanHeader [] i md cs = (md, cs) := rfl

/-- A metadata line advances the scan, recording the key/value pair and
moving `code_start` past the line. -/
theorem scanHeader_meta {line : Str} (rest : List Str) (i : Nat)
    (md : List (Str × Str)) (cs : Nat) {k v : Str}
    (h : parseMetaLine (pstrip line) = some (k, v)) :
    scanHeader (line :: rest) i md cs = scanHeader rest (i + 1) (dset md k v) (i + 1) := by
  obtain ⟨r, hr⟩ := parseMeta_some_shape h
  rw [scanHeader, if_neg (by rw [hr]; simp), h]

/-- Once metadata is non-empty, any line the regex does not match stops
the scan: the metadata and `code_start` so far are returned.  This is
the `break` on both the post-metadata comment branch and the
non-comment branch. -/
theorem scanHeader_break {line : Str} (rest : List Str) (i : Nat)
    {md : List (Str × Str)} (cs : Nat) (hmd : md ≠ [])
    (h : parseMetaLine (pstrip line) = none) :
    scanHeader (line :: rest) i md cs = (md, cs) := by
  have hE : md.isEmpty = false := by
    cases md with
    | nil => exact absurd rfl hmd
    | cons p t => rfl
  rw [scanHeader, if_neg (by rw [hE]; simp), h, if_neg (by rw [hE]; simp)]

/-- Every metadata value the idioms scanner stores is non-empty and
strip-fixed. -/
theorem scanHeader_values :
    ∀ (lines : List Str) (i : Nat) (md : List (Str × Str)) (cs : Nat),
      (∀ kv ∈ md, kv.2 ≠ [] ∧ pstrip kv.2 = kv.2) →
      ∀ kv ∈ (scanHeader lines i md cs).1, kv.2 ≠ [] ∧ pstrip kv.2 = kv.2 := by
  intro lines
  induction lines with
  | nil => intro i md cs hP kv hkv; exact hP kv hkv
  | cons line rest ih =>
    intro i md cs hP
    rw [scanHeader]
    split
    · exact ih _ _ _ hP
    · split
      · rename_i k v heq
        refine ih _ _ _ ?_
        intro kv hkv
        rcases mem_dset md k v kv hkv with hm | he
        · exact hP kv hm
        · rw [he]
          exact parseMeta_val (rstripS_pstrip line) heq
      · split
        · exact ih _ _ _ hP
        · exact hP

end GenIdioms

namespace GenSnippets

theorem scanSnip_nil (md : List (Str × Str)) : scanHeader [] md = md := rfl

theorem scanSnip_meta {line : Str} (rest : List Str)
    (md : List (Str × Str)) {k v : Str}
    (h : parseMetaLine (pstrip line) = some (k, v)) :
    scanHeader (line :: rest) md = scanHeader rest (dset md k v) := by
  obtain ⟨r, hr⟩ := parseMeta_some_shape h
  rw [scanHeader, if_neg (by rw [hr]; simp), h]

theorem scanSnip_break {line : Str} (rest : List Str)
    {md : List (Str × Str)} (hmd : md ≠ [])
    (h : parseMetaLine (pstrip line) = none) :
    scanHeader (line :: rest) md = md := by
  have hE : md.isEmpty = false := by
    cases md with
    | nil => exact absurd rfl hmd
    | cons p t => rfl
  rw [scanHeader, if_neg (by rw [hE]; simp), h, if_neg (by rw [hE]; simp)]

/-- Every metadata value the snippets scanner stores is non-empty and
strip-fixed. -/
theorem scanSnip_values :
    ∀ (lines : List Str) (md : List (Str × Str)),
      (∀ kv ∈ md, kv.2 ≠ [] ∧ pstrip kv.2 = kv.2) →
      ∀ kv ∈ scanHeader lines md, kv.2 ≠ [] ∧ pstrip kv.2 = kv.2 := by
  intro lines
  induction lines with
  | nil => intro md hP kv hkv; exact hP kv hkv
  | cons line rest ih =>
    intro md hP
    rw [scanHeader]
    split
    · exact ih _ hP
    · split
      · rename_i k v heq
        refine ih _ ?_
        intro kv hkv
        rcases mem_dset md k v kv hkv with hm | he
        · exact hP kv hm
        · rw [he]
          exact parseMeta_val (rstripS_pstrip line) heq
      · split
        · exact ih _ hP
        · exact hP

end GenSnippets

theorem takeWhile_append_all (p : Char → Bool) :
    ∀ (w : Str) {y : Char} (ys : Str), (∀ c ∈ w, p c) → p y = false →
      (w ++ y :: ys).takeWhile p = w := by
  intro w
  induction w with
  | nil =>
    intro y ys _ hy
    rw [List.nil_append, List.takeWhile_cons, if_neg (by rw [hy]; simp)]
  | cons a w ih =>
    intro y ys hall hy
    rw [List.cons_append, List.takeWhile_cons,
      if_pos (by rw [hall a (List.mem_cons_self a w)])]
    rw [ih ys (fun c hc => hall c (List.mem_cons_of_mem a hc)) hy]

/-- A `// @key:` line with nothing after the colon does not match the
metadata regex: `(.+)` cannot match an empty remainder. -/
theorem parseMeta_emptyValue (w : Str) (hw : ∀ c ∈ w, wordB c) (hne : w ≠ []) :
    parseMetaLine ('/' :: '/' :: ' ' :: '@' :: (w ++ [':'])) = none := by
  have h1 : List.dropWhile wsB (' ' :: '@' :: (w ++ [':'])) = '@' :: (w ++ [':']) := by
    rw [List.dropWhile_cons, if_pos (by decide), List.dropWhile_cons, if_neg (by decide)]
  have h2 : (w ++ [':']).dropWhile wordB = [':'] := by
    have := dropWhile_append_all wordB w [] hw (show wordB ':' = false by decide)
    simpa using this
  have h3 : (w ++ [':']).takeWhile wordB = w := by
    have := takeWhile_append_all wordB w [] hw (show wordB ':' = false by decide)
    simpa using this
  have h4 : w.isEmpty = false := by
    cases w with
    | nil => exact absurd rfl hne
    | cons a t => rfl
  unfold parseMetaLine
  simp only [h1, h2, h3, h4, metaRest]
  simp

/-- A `// @key:` line is its own `strip()`. -/
theorem emptyValue_strip_fixed (w : Str) (hw : ∀ c ∈ w, wordB c) :
    pstrip ('/' :: '/' :: ' ' :: '@' :: (w ++ [':'])) =
      '/' :: '/' :: ' ' :: '@' :: (w ++ [':']) := by
  unfold pstrip
  rw [List.dropWhile_cons, if_neg (by decide)]
  have hsplit : ('/' :: '/' :: ' ' :: '@' :: (w ++ [':']) : Str) =
      ('/' :: '/' :: ' ' :: '@' :: w) ++ [':'] := by simp
  rw [hsplit, rstripS_append_nonWs _ (by decide)]

/-- C10 : every value stored in the metadata mapping by either header
scanner is a non-empty string with no leading or trailing whitespace;
in particular a `// @key:` line with nothing after the colon never
matches the metadata regex and is instead classified as a plain comment
line, so when metadata parsing has already started such a line
terminates the metadata block. -/
theorem c10_metadata_values_nonempty_trimmed :
    (∀ lines : List Str, ∀ kv ∈ (GenIdioms.scanHeader lines 0 [] 0).1,
        kv.2 ≠ [] ∧ pstrip kv.2 = kv.2)
    ∧ (∀ lines : List Str, ∀ kv ∈ GenSnippets.scanHeader lines [],
        kv.2 ≠ [] ∧ pstrip kv.2 = kv.2)
    ∧ (∀ w : Str, (∀ c ∈ w, wordB c) → w ≠ [] →
        parseMetaLine (pstrip ('/' :: '/' :: ' ' :: '@' :: (w ++ [':']))) = none
        ∧ startsSlashSlash (pstrip ('/' :: '/' :: ' ' :: '@' :: (w ++ [':']))) = true
        ∧ (∀ (rest : List Str) (i : Nat) (md : List (Str × Str)) (cs : Nat), md ≠ [] →
            GenIdioms.scanHeader (('/' :: '/' :: ' ' :: '@' :: (w ++ [':'])) :: rest) i md cs
              = (md, cs))) := by
  refine ⟨?_, ?_, ?_⟩
  · intro lines kv hkv
    exact GenIdioms.scanHeader_values lines 0 [] 0 (by intro kv h; simp at h) kv hkv
  · intro lines kv hkv
    exact GenSnippets.scanSnip_values lines [] (by intro kv h; simp at h) kv hkv
  · intro w hw hne
    have hfix := emptyValue_strip_fixed w hw
    have hnone := parseMeta_emptyValue w hw hne
    refine ⟨by rw [hfix]; exact hnone, by rw [hfix]; rfl, ?_⟩
    intro rest i md cs hmd
    exact GenIdioms.scanHeader_break rest i cs hmd (by rw [hfix]; exact hnone)

/-- Witness for C10 at the concrete key `key` and a concrete file. -/
theorem c10_witness :
    (∀ kv ∈ (GenIdioms.scanHeader ["// @name: a".data, "// @key:".data] 0 [] 0).1,
        kv.2 ≠ [] ∧ pstrip kv.2 = kv.2)
    ∧ parseMetaLine (pstrip ('/' :: '/' :: ' ' :: '@' :: ("key".data ++ [':']))) = none
    ∧ GenIdioms.scanHeader (('/' :: '/' :: ' ' :: '@' :: ("key".data ++ [':'])) :: [])
        0 [("name".data, "a".data)] 1 = ([("name".data, "a".data)], 1) := by
  have h := c10_metadata_values_nonempty_trimmed
  refine ⟨h.1 _, ?_, ?_⟩
  · exact (h.2.2 "key".data (by decide) (by decide)).1
  · exact (h.2.2 "key".data (by decide) (by decide)).2.2 [] 0 [("name".data, "a".data)] 1
      (by simp)

/-! ## C6 and C9: the overlay merger and the batch-fatal checks -/

/-- C6 : when the patch document's patch mapping is empty the overlay
merge is a no-op: `main` returns through the `No rewrites found` early
exit (reporting zero merges), the file is not rewritten, and its bytes
are therefore unchanged. -/
theorem c6_empty_patch_noop (rewritesDoc : List (Str × JVal))
    (records : List (List (Str × JVal)))
    (h : MergeRewrites.extractRewrites rewritesDoc = []) :
    MergeRewrites.mergeMain true true rewritesDoc records = .noRewrites
    ∧ MergeRewrites.mergeWrites (MergeRewrites.mergeMain true true rewritesDoc records)
        = none := by
  unfold MergeRewrites.mergeMain
  rw [h]
  exact ⟨rfl, rfl⟩

/-- Witness for C6: an overlay document whose `rewrites` object is
empty, over a one-record file. -/
theorem c6_witness :
    MergeRewrites.extractRewrites [("rewrites".data, .jobj [])] = []
    ∧ MergeRewrites.mergeMain true true [("rewrites".data, .jobj [])]
        [[("token".data, .jstr "~".data)]] = .noRewrites := by
  have h := c6_empty_patch_noop [("rewrites".data, .jobj [])]
    [[("token".data, .jstr "~".data)]] rfl
  exact ⟨rfl, h.1⟩

/-- C9 : a missing declared input aborts the run with a diagnostic
naming the missing path and nothing is written: the merger checks the
target file then the patch document, and generate-data's `main` checks
its three sources in order and exits at the first missing one. -/
theorem c9_missing_input_aborts :
    (∀ (e : Bool) (doc : List (Str × JVal)) (recs : List (List (Str × JVal))),
        MergeRewrites.mergeMain false e doc recs = .errMissing MergeRewrites.miniPath
        ∧ MergeRewrites.mergeWrites (MergeRewrites.mergeMain false e doc recs) = none)
    ∧ (∀ (doc : List (Str × JVal)) (recs : List (List (Str × JVal))),
        MergeRewrites.mergeMain true false doc recs = .errMissing MergeRewrites.rewritesPath
        ∧ MergeRewrites.mergeWrites (MergeRewrites.mergeMain true false doc recs) = none)
    ∧ (∀ (isfile : Str → Bool)
        (fnC : List (Str × List (List (Str × JVal))))
        (sndC : List (Str × List (Str × JVal)))
        (toks : List (List (Str × JVal))),
        (∃ p ∈ GenData.requiredSubPaths, isfile p = false) →
        ∃ p ∈ GenData.requiredSubPaths, isfile p = false
          ∧ GenData.dataMain isfile fnC sndC toks = .errMissing p
          ∧ GenData.dataWritesOf (GenData.dataMain isfile fnC sndC toks) = []) := by
  refine ⟨?_, ?_, ?_⟩
  · intro e doc recs
    exact ⟨rfl, rfl⟩
  · intro doc recs
    exact ⟨rfl, rfl⟩
  · intro isfile fnC sndC toks hex
    obtain ⟨p0, hp0mem, hp0⟩ := hex
    have hsome : (GenData.requiredSubPaths.find? (fun p => !isfile p)).isSome := by
      rw [List.find?_isSome]
      exact ⟨p0, hp0mem, by rw [hp0]; rfl⟩
    obtain ⟨p, hp⟩ := Option.isSome_iff_exists.mp hsome
    have hmem := List.mem_of_find?_eq_some hp
    have hfail : isfile p = false := by
      have := List.find?_some hp
      simpa using this
    refine ⟨p, hmem, hfail, ?_, ?_⟩
    · unfold GenData.dataMain
      rw [hp]
    · unfold GenData.dataWritesOf GenData.dataMain
      rw [hp]

/-- Witness for C9: nonexistent-source run of generate-data plus the
two merger aborts, at concrete inputs. -/
theorem c9_witness :
    MergeRewrites.mergeMain false true [] [] = .errMissing MergeRewrites.miniPath
    ∧ MergeRewrites.mergeMain true false [] [] = .errMissing MergeRewrites.rewritesPath
    ∧ ∃ p ∈ GenData.requiredSubPaths, (fun _ : Str => false) p = false
        ∧ GenData.dataMain (fun _ => false) [] [] [] = .errMissing p
        ∧ GenData.dataWritesOf (GenData.dataMain (fun _ => false) [] [] []) = [] := by
  have h := c9_missing_input_aborts
  refine ⟨(h.1 true [] []).1, (h.2.1 [] []).1, ?_⟩
  exact h.2.2 (fun _ => false) [] [] []
    ⟨"api/output/functions.json".data, by simp [GenData.requiredSubPaths], rfl⟩

/-! ## C1: the overlay merge -/

/-- C1 as stated is false: a record that already carries a `rewrites`
field and whose token matches a patch gains no new field — the existing
field is overwritten in place.  Concretely, with patch `{"~": null}`
over the record `{"token":"~","rewrites":false}`, the token matches,
yet the merged record has exactly the keys of the original. -/
theorem c1_counterexample :
    MergeRewrites.recPatch
        (MergeRewrites.extractRewrites [("rewrites".data, JVal.jobj [("~".data, JVal.jnull)])])
        [("token".data, JVal.jstr "~".data), ("rewrites".data, JVal.jbool false)]
      = some JVal.jnull
    ∧ (MergeRewrites.mergeRecord
        (MergeRewrites.extractRewrites [("rewrites".data, JVal.jobj [("~".data, JVal.jnull)])])
        [("token".data, JVal.jstr "~".data), ("rewrites".data, JVal.jbool false)]).map Prod.fst
      = [("token".data, JVal.jstr "~".data), ("rewrites".data, JVal.jbool false)].map Prod.fst := by
  exact ⟨rfl, rfl⟩

/-- C1 (amended): over a non-empty patch mapping, `main` rewrites the
file with the merged records in the original order (same count); a
record with no matching patch is left unchanged (hence byte-for-byte
identical when rewritten); a matching record *without* an existing
`rewrites` field gains exactly one new trailing field `rewrites`
holding the patch payload; a matching record that already has a
`rewrites` field keeps its key list and gets the payload written over
the old value. -/
theorem c1_overlay_merge_order_preserving :
    ∀ (doc : List (Str × JVal)) (records : List (List (Str × JVal))),
      MergeRewrites.extractRewrites doc ≠ [] →
      (MergeRewrites.mergeMain true true doc records
        = .written
            (records.map (MergeRewrites.mergeRecord (MergeRewrites.extractRewrites doc)))
            ((records.filter
              (fun r => (MergeRewrites.recPatch (MergeRewrites.extractRewrites doc) r).isSome)).length))
      ∧ (records.map (MergeRewrites.mergeRecord (MergeRewrites.extractRewrites doc))).length
          = records.length
      ∧ (∀ r, MergeRewrites.recPatch (MergeRewrites.extractRewrites doc) r = none →
          MergeRewrites.mergeRecord (MergeRewrites.extractRewrites doc) r = r)
      ∧ (∀ r pay, MergeRewrites.recPatch (MergeRewrites.extractRewrites doc) r = some pay →
          dlookup "rewrites".data r = none →
          MergeRewrites.mergeRecord (MergeRewrites.extractRewrites doc) r
            = r ++ [("rewrites".data, pay)])
      ∧ (∀ r pay, MergeRewrites.recPatch (MergeRewrites.extractRewrites doc) r = some pay →
          (dlookup "rewrites".data r).isSome →
          (MergeRewrites.mergeRecord (MergeRewrites.extractRewrites doc) r).map Prod.fst
              = r.map Prod.fst
          ∧ dlookup "rewrites".data
              (MergeRewrites.mergeRecord (MergeRewrites.extractRewrites doc) r) = some pay) := by
  intro doc records hne
  have hE : (MergeRewrites.extractRewrites doc).isEmpty = false := by
    cases h : MergeRewrites.extractRewrites doc with
    | nil => exact absurd h hne
    | cons p t => rfl
  refine ⟨?_, List.length_map _ _, ?_, ?_, ?_⟩
  · unfold MergeRewrites.mergeMain
    simp only [hE]
    rfl
  · intro r hnone
    unfold MergeRewrites.mergeRecord
    rw [hnone]
  · intro r pay hsome habs
    unfold MergeRewrites.mergeRecord
    rw [hsome]
    exact dset_absent_eq_append r _ pay habs
  · intro r pay hsome hpres
    unfold MergeRewrites.mergeRecord
    rw [hsome]
    exact ⟨dset_keys_present r _ pay hpres, dlookup_dset_self r _ pay⟩

/-- Witness for C1 at the spec's concrete scenario D: patch
`{"~": {"alsoAccepts": ["-"]}}` over `{"token":"~","meaning":"rest"}`
appends exactly the `rewrites` field, and a non-matching record is
untouched. -/
theorem c1_witness :
    MergeRewrites.mergeRecord
        (MergeRewrites.extractRewrites
          [("rewrites".data, JVal.jobj [("~".data, JVal.jobj [("alsoAccepts".data, JVal.jarr [JVal.jstr "-".data])])])])
        [("token".data, JVal.jstr "~".data), ("meaning".data, JVal.jstr "rest".data)]
      = [("token".data, JVal.jstr "~".data), ("meaning".data, JVal.jstr "rest".data),
         ("rewrites".data, JVal.jobj [("alsoAccepts".data, JVal.jarr [JVal.jstr "-".data])])]
    ∧ MergeRewrites.mergeRecord
        (MergeRewrites.extractRewrites
          [("rewrites".data, JVal.jobj [("~".data, JVal.jobj [("alsoAccepts".data, JVal.jarr [JVal.jstr "-".data])])])])
        [("token".data, JVal.jstr "x".data)]
      = [("token".data, JVal.jstr "x".data)] := by
  have h := c1_overlay_merge_order_preserving
    [("rewrites".data, JVal.jobj [("~".data, JVal.jobj [("alsoAccepts".data, JVal.jarr [JVal.jstr "-".data])])])]
    [[("token".data, JVal.jstr "~".data), ("meaning".data, JVal.jstr "rest".data)]]
    (by intro hc; exact absurd hc (by simp [MergeRewrites.extractRewrites, dlookup]))
  constructor
  · exact h.2.2.2.1
      [("token".data, JVal.jstr "~".data), ("meaning".data, JVal.jstr "rest".data)]
      (JVal.jobj [("alsoAccepts".data, JVal.jarr [JVal.jstr "-".data])]) rfl rfl
  · exact h.2.2.1 [("token".data, JVal.jstr "x".data)] rfl

/-! ## C2: the metadata-terminating comment line -/

theorem dropWhile_append_single {β : Type} (p : β → Bool) {c : β} (hc : p c = false) :
    ∀ xs : List β, (xs ++ [c]).dropWhile p = xs.dropWhile p ++ [c] := by
  intro xs
  induction xs with
  | nil => simp [List.dropWhile_cons, hc]
  | cons a t ih =>
    rw [List.cons_append, List.dropWhile_cons, List.dropWhile_cons]
    by_cases ha : p a
    · rw [if_pos ha, if_pos ha, ih]
    · rw [if_neg ha, if_neg ha, List.cons_append]

/-- Leading-line trimming keeps a non-blank head; only the trailing
blank run of the tail is removed. -/
theorem trimBlankEnds_cons {c : Str} (rest : List Str) (hc : blankL c = false) :
    trimBlankEnds (c :: rest) = c :: rstripBlank rest := by
  unfold trimBlankEnds rstripBlank
  rw [List.dropWhile_cons, if_neg (by rw [hc]; simp)]
  rw [List.reverse_cons, dropWhile_append_single blankL hc]
  simp

/-- Running the idioms scanner over a block of metadata lines records
exactly their pairs and, when the block is non-empty, pushes
`code_start` past the block. -/
theorem scanHeader_metaBlock :
    ∀ (ms : List Str), (∀ l ∈ ms, (parseMetaLine (pstrip l)).isSome) →
      ∀ (tail : List Str) (i : Nat) (md : List (Str × Str)) (cs : Nat),
        GenIdioms.scanHeader (ms ++ tail) i md cs
          = GenIdioms.scanHeader tail (i + ms.length) (mdScan md ms)
              (if ms.isEmpty then cs else i + ms.length) := by
  intro ms
  induction ms with
  | nil => intro _ tail i md cs; simp [mdScan]
  | cons l ms ih =>
    intro hall tail i md cs
    obtain ⟨⟨k, v⟩, hkv⟩ := Option.isSome_iff_exists.mp (hall l (List.mem_cons_self l ms))
    rw [List.cons_append, GenIdioms.scanHeader_meta _ i md cs hkv,
      ih (fun x hx => hall x (List.mem_cons_of_mem l hx)) tail (i + 1) (dset md k v) (i + 1)]
    have hmd : mdScan (dset md k v) ms = mdScan md (l :: ms) := by
      rw [mdScan, hkv]
    rw [hmd]
    have harith : i + 1 + ms.length = i + (l :: ms).length := by
      simp [List.length_cons]; omega
    cases ms with
    | nil => simp
    | cons a t =>
      simp only [List.isEmpty_cons, List.length_cons]
      rw [show i + 1 + (t.length + 1) = i + (t.length + 1 + 1) by omega]
      simp

/-- The same for the snippets scanner. -/
theorem scanSnippets_metaBlock :
    ∀ (ms : List Str), (∀ l ∈ ms, (parseMetaLine (pstrip l)).isSome) →
      ∀ (tail : List Str) (md : List (Str × Str)),
        GenSnippets.scanHeader (ms ++ tail) md
          = GenSnippets.scanHeader tail (mdScan md ms) := by
  intro ms
  induction ms with
  | nil => intro _ tail md; simp [mdScan]
  | cons l ms ih =>
    intro hall tail md
    obtain ⟨⟨k, v⟩, hkv⟩ := Option.isSome_iff_exists.mp (hall l (List.mem_cons_self l ms))
    rw [List.cons_append, GenSnippets.scanSnip_meta _ md hkv,
      ih (fun x hx => hall x (List.mem_cons_of_mem l hx)) tail (dset md k v)]
    rw [show mdScan (dset md k v) ms = mdScan md (l :: ms) by rw [mdScan, hkv]]

theorem mdScan_ne_nil_of_ne (md : List (Str × Str)) (hmd : md ≠ []) :
    ∀ ms, mdScan md ms ≠ [] := by
  intro ms
  induction ms generalizing md with
  | nil => exact hmd
  | cons l ms ih =>
    rw [mdScan]
    cases h : parseMetaLine (pstrip l) with
    | some kv => exact ih _ (dset_ne_nil md kv.1 kv.2)
    | none => exact ih _ hmd

theorem mdScan_metaBlock_ne_nil {ms : List Str}
    (hall : ∀ l ∈ ms, (parseMetaLine (pstrip l)).isSome) (hne : ms ≠ []) :
    mdScan [] ms ≠ [] := by
  cases ms with
  | nil => exact absurd rfl hne
  | cons l ms =>
    obtain ⟨⟨k, v⟩, hkv⟩ := Option.isSome_iff_exists.mp (hall l (List.mem_cons_self l ms))
    rw [mdScan, hkv]
    exact mdScan_ne_nil_of_ne _ (dset_ne_nil [] k v) ms

/-- C2 as stated is false: the comment line terminating the metadata
block of an idiom file is *not* dropped — it is retained verbatim as
the first line of the returned body.  Concretely, `// watch out` below
ends the metadata scan and then appears at the head of `code`. -/
theorem c2_counterexample :
    GenIdioms.parseStrudelFile
        ["// @name: x".data, "// @cat: c".data, "// @desc: d".data,
         "// watch out".data, "code".data]
      = .ok { name := "x".data, cat := "c".data, desc := "d".data,
              notes := none, tags := none, functions := none,
              code := "// watch out\ncode".data } := by
  rfl

/-- C2 (amended): a plain comment line (a `//` line not matching the
metadata regex) after a non-empty block of metadata lines terminates
the metadata block and is added to no metadata mapping by either
parser; but it is not dropped from the idioms body: `code_start` stays
at the comment line, so the returned `code` begins with that comment
line.  (The snippets parser returns no body at all.) -/
theorem c2_terminating_comment :
    ∀ (ms : List Str) (c : Str) (rest : List Str),
      (∀ l ∈ ms, (parseMetaLine (pstrip l)).isSome) → ms ≠ [] →
      startsSlashSlash (pstrip c) = true → parseMetaLine (pstrip c) = none →
      GenIdioms.scanHeader (ms ++ c :: rest) 0 [] 0 = (mdScan [] ms, ms.length)
      ∧ GenSnippets.scanHeader (ms ++ c :: rest) [] = mdScan [] ms
      ∧ trimBlankEnds ((ms ++ c :: rest).drop ms.length) = c :: rstripBlank rest
      ∧ (GenIdioms.requiredFields.filter
            (fun f => (dlookup f (mdScan [] ms)).isNone) = [] →
          GenIdioms.parseStrudelFile (ms ++ c :: rest)
            = .ok { name := dget (mdScan [] ms) "name".data []
                    cat := dget (mdScan [] ms) "cat".data []
                    desc := dget (mdScan [] ms) "desc".data []
                    notes := dlookup "notes".data (mdScan [] ms)
                    tags := dlookup "tags".data (mdScan [] ms)
                    functions := dlookup "functions".data (mdScan [] ms)
                    code := joinNL (c :: rstripBlank rest) }) := by
  intro ms c rest hall hne hstart hnone
  have hmdne : mdScan [] ms ≠ [] := mdScan_metaBlock_ne_nil hall hne
  have hmsE : ms.isEmpty = false := by
    cases ms with
    | nil => exact absurd rfl hne
    | cons a t => rfl
  have hscan : GenIdioms.scanHeader (ms ++ c :: rest) 0 [] 0 = (mdScan [] ms, ms.length) := by
    rw [scanHeader_metaBlock ms hall (c :: rest) 0 [] 0, hmsE]
    rw [if_neg (by simp)]
    rw [GenIdioms.scanHeader_break rest (0 + ms.length) (0 + ms.length) hmdne hnone]
    simp
  have hpsne : pstrip c ≠ [] := by
    intro h
    rw [h] at hstart
    exact absurd hstart (by simp [startsSlashSlash])
  have hblank : blankL c = false := by
    unfold blankL
    cases h : pstrip c with
    | nil => exact absurd h hpsne
    | cons a t => rfl
  have htrim : trimBlankEnds ((ms ++ c :: rest).drop ms.length) = c :: rstripBlank rest := by
    rw [List.drop_left, trimBlankEnds_cons rest hblank]
  refine ⟨hscan, ?_, htrim, ?_⟩
  · rw [scanSnippets_metaBlock ms hall (c :: rest) [],
      GenSnippets.scanSnip_break rest hmdne hnone]
  · intro hreq
    have hcne : c ≠ [] := by
      intro h
      rw [h] at hpsne
      exact hpsne rfl
    have hcode : joinNL (c :: rstripBlank rest) ≠ [] := by
      cases hr : rstripBlank rest with
      | nil =>
        show joinNL [c] ≠ []
        exact hcne
      | cons a t =>
        show c ++ Char.ofNat 10 :: joinNL (a :: t) ≠ []
        intro hcontra
        rcases List.append_eq_nil.mp hcontra with ⟨h1, h2⟩
        exact absurd h2 (by simp)
    have hcodeE : (joinNL (c :: rstripBlank rest)).isEmpty = false := by
      rw [List.isEmpty_eq_false]
      exact hcode
    simp [GenIdioms.parseStrudelFile, hscan, hreq, trimBlankEnds_cons rest hblank, hcode]

/-- Witness for C2 at a concrete metadata block and comment line. -/
theorem c2_witness :
    GenIdioms.scanHeader
        (["// @name: x".data, "// @cat: c".data, "// @desc: d".data]
          ++ "// watch out".data :: ["code".data]) 0 [] 0
      = (mdScan [] ["// @name: x".data, "// @cat: c".data, "// @desc: d".data], 3)
    ∧ GenIdioms.parseStrudelFile
        (["// @name: x".data, "// @cat: c".data, "// @desc: d".data]
          ++ "// watch out".data :: ["code".data])
      = .ok { name := dget (mdScan [] ["// @name: x".data, "// @cat: c".data, "// @desc: d".data]) "name".data []
              cat := dget (mdScan [] ["// @name: x".data, "// @cat: c".data, "// @desc: d".data]) "cat".data []
              desc := dget (mdScan [] ["// @name: x".data, "// @cat: c".data, "// @desc: d".data]) "desc".data []
              notes := dlookup "notes".data (mdScan [] ["// @name: x".data, "// @cat: c".data, "// @desc: d".data])
              tags := dlookup "tags".data (mdScan [] ["// @name: x".data, "// @cat: c".data, "// @desc: d".data])
              functions := dlookup "functions".data (mdScan [] ["// @name: x".data, "// @cat: c".data, "// @desc: d".data])
              code := joinNL ("// watch out".data :: rstripBlank ["code".data]) } := by
  have h := c2_terminating_comment
    ["// @name: x".data, "// @cat: c".data, "// @desc: d".data]
    "// watch out".data ["code".data]
    (by decide) (by decide) (by decide) (by decide)
  exact ⟨h.1, h.2.2.2 (by decide)⟩

/-! ## C4: comma-split list fields -/

theorem splitComma_ne_nil : ∀ s : Str, splitComma s ≠ [] := by
  intro s
  induction s with
  | nil => simp [splitComma]
  | cons c rest ih =>
    rw [splitComma]
    by_cases hc : c = ','
    · rw [if_pos hc]; simp
    · rw [if_neg hc]
      cases h : splitComma rest with
      | nil => simp
      | cons hd tl => simp

theorem dlookup_optField_ne (d : List (Str × JVal)) (key key' : Str) (v? : Option Str)
    (f : Str → JVal) (h : key' ≠ key) :
    dlookup key' (GenIdioms.optField d key v? f) = dlookup key' d := by
  unfold GenIdioms.optField
  cases v? with
  | none => rfl
  | some v =>
    dsimp only
    by_cases hv : v.isEmpty
    · rw [hv]; rfl
    · simp only [List.isEmpty_eq_false] at hv
      rw [if_pos (by simp [hv]), dlookup_dset_ne _ _ _ _ h]

theorem dlookup_optField_self (d : List (Str × JVal)) (key : Str) (v? : Option Str)
    (f : Str → JVal) (hnone : dlookup key d = none) :
    dlookup key (GenIdioms.optField d key v? f)
      = (match v? with
         | some v => if v.isEmpty then none else some (f v)
         | none => none) := by
  unfold GenIdioms.optField
  cases v? with
  | none => exact hnone
  | some v =>
    dsimp only
    by_cases hv : v.isEmpty
    · rw [hv]
      simpa using hnone
    · simp only [List.isEmpty_eq_false] at hv
      rw [if_pos (by simp [hv]), if_neg (by simp [hv])]
      exact dlookup_dset_self d key (f v)

/-- C4 as stated is false for the idioms generator: splitting
`a, ,b` trims each element but keeps the resulting empty element, so
the emitted `tags` array contains the empty string. -/
theorem c4_counterexample :
    dlookup "tags".data (GenIdioms.idiomRecJson
        { name := "x".data, cat := "c".data, desc := "d".data,
          notes := none, tags := some "a, ,b".data, functions := none,
          code := "z".data })
      = some (JVal.jarr [JVal.jstr "a".data, JVal.jstr [], JVal.jstr "b".data]) := by
  rfl

/-- C4 (amended): in the snippets generator a list field is the
comma-split of the raw value with elements trimmed and empty elements
dropped, and the field is emitted iff the resulting list is non-empty;
in the idioms generator elements are trimmed but empty elements are
*kept*, and the field is emitted iff the raw metadata value is
non-empty (the comma-split of a non-empty string being automatically a
non-empty list). -/
theorem c4_list_field_split :
    (∀ r : GenIdioms.IdiomRec,
      dlookup "tags".data (GenIdioms.idiomRecJson r)
        = (match r.tags with
           | some v => if v.isEmpty then none else some (GenIdioms.commaList v)
           | none => none)
      ∧ dlookup "functions".data (GenIdioms.idiomRecJson r)
        = (match r.functions with
           | some v => if v.isEmpty then none else some (GenIdioms.commaList v)
           | none => none))
    ∧ (∀ r : GenSnippets.SnippetRec,
      dlookup "tags".data (GenSnippets.snippetRecJson r)
        = (match r.tags with
           | some l => if l.isEmpty then none else some (JVal.jarr (l.map JVal.jstr))
           | none => none))
    ∧ (∀ (fname : Str) (lines : List Str) (r : GenSnippets.SnippetRec),
        GenSnippets.parseSnippetFile fname lines = .ok r →
        r.tags = (match dlookup "tags".data (GenSnippets.scanHeader lines []) with
                  | some tv => some (((splitComma tv).map pstrip).filter (fun t => !t.isEmpty))
                  | none => none)) := by
  refine ⟨?_, ?_, ?_⟩
  · intro r
    unfold GenIdioms.idiomRecJson
    constructor
    · rw [dlookup_dset_ne _ _ _ _ (by decide),
        dlookup_optField_ne _ _ _ _ _ (by decide),
        dlookup_optField_self]
      rw [dlookup_optField_ne _ _ _ _ _ (by decide)]
      rw [dlookup_cons, if_neg (by decide), dlookup_cons, if_neg (by decide),
        dlookup_cons, if_neg (by decide)]
      rfl
    · rw [dlookup_dset_ne _ _ _ _ (by decide),
        dlookup_optField_self]
      rw [dlookup_optField_ne _ _ _ _ _ (by decide),
        dlookup_optField_ne _ _ _ _ _ (by decide)]
      rw [dlookup_cons, if_neg (by decide), dlookup_cons, if_neg (by decide),
        dlookup_cons, if_neg (by decide)]
      rfl
  · intro r
    unfold GenSnippets.snippetRecJson
    cases r.tags with
    | none =>
      dsimp only
      rw [dlookup_cons, if_neg (by decide), dlookup_cons, if_neg (by decide),
        dlookup_cons, if_neg (by decide)]
      rfl
    | some l =>
      dsimp only
      by_cases hl : l.isEmpty
      · rw [hl]
        show dlookup "tags".data
            [("name".data, JVal.jstr r.name), ("file".data, JVal.jstr r.file),
             ("desc".data, JVal.jstr r.desc)] = none
        rw [dlookup_cons, if_neg (by decide), dlookup_cons, if_neg (by decide),
          dlookup_cons, if_neg (by decide)]
        rfl
      · simp only [List.isEmpty_eq_false] at hl
        rw [if_pos (by simp [hl]), if_neg (by simp [hl])]
        exact dlookup_dset_self _ _ _
  · intro fname lines r h
    unfold GenSnippets.parseSnippetFile at h
    dsimp only at h
    split at h
    · exact absurd h (by simp)
    · have hr : r = { name := dget (GenSnippets.scanHeader lines []) "name".data []
                      file := fname
                      desc := dget (GenSnippets.scanHeader lines []) "desc".data []
                      tags := match dlookup "tags".data (GenSnippets.scanHeader lines []) with
                        | some tv => some (((splitComma tv).map pstrip).filter (fun t => !t.isEmpty))
                        | none => none } := by
        injection h with h1
        exact h1.symm
      rw [hr]

/-- Witness for C4 at a concrete snippet file with tags `a, ,b`: the
snippets generator drops the empty element. -/
theorem c4_witness :
    (match GenSnippets.parseSnippetFile "s.str".data
        ["// @name: n".data, "// @desc: d".data, "// @tags: a, ,b".data] with
     | .ok r => r.tags
     | .missingFields _ => none)
      = some ["a".data, "b".data] := by
  have hp : GenSnippets.parseSnippetFile "s.str".data
      ["// @name: n".data, "// @desc: d".data, "// @tags: a, ,b".data]
      = .ok { name := "n".data, file := "s.str".data, desc := "d".data,
              tags := some ["a".data, "b".data] } := by rfl
  have ht := c4_list_field_split.2.2 "s.str".data
    ["// @name: n".data, "// @desc: d".data, "// @tags: a, ,b".data] _ hp
  exact hp ▸ ht.trans rfl

/-! ## C5: missing required fields -/

theorem runFiles_append {κ : Type} (process : Str × κ → Option Str × List Warn) :
    ∀ l1 l2 : List (Str × κ),
      runFiles process (l1 ++ l2)
        = ((runFiles process l1).1 ++ (runFiles process l2).1,
           (runFiles process l1).2.1 + (runFiles process l2).2.1,
           (runFiles process l1).2.2 ++ (runFiles process l2).2.2) := by
  intro l1
  induction l1 with
  | nil =>
    intro l2
    simp [runFiles]
  | cons f t ih =>
    intro l2
    rw [List.cons_append, runFiles, runFiles, ih l2]
    cases hp : (process f).1 with
    | some line =>
      simp only
      refine congrArg₂ Prod.mk ?_ (congrArg₂ Prod.mk ?_ ?_)
      · simp
      · omega
      · simp
    | none =>
      simp only
      refine congrArg₂ Prod.mk ?_ (congrArg₂ Prod.mk ?_ ?_)
      · simp
      · omega
      · simp

/-- Skipping one rejected file: its warnings are recorded in place and
the loop continues with the files after it. -/
theorem runFiles_skip {κ : Type} (process : Str × κ → Option Str × List Warn)
    (pre post : List (Str × κ)) (x : Str × κ) (w : List Warn)
    (hx : process x = (none, w)) :
    runFiles process (pre ++ x :: post)
      = ((runFiles process pre).1 ++ (runFiles process post).1,
         (runFiles process pre).2.1 + (runFiles process post).2.1,
         (runFiles process pre).2.2 ++ w ++ (runFiles process post).2.2) := by
  rw [runFiles_append process pre (x :: post)]
  rw [show runFiles process (x :: post)
      = ((runFiles process post).1, (runFiles process post).2.1,
         w ++ (runFiles process post).2.2) by rw [runFiles, hx]]
  simp

/-- C5 : a source file with a missing required field — absent, or
present but falsy, which for the comment-header metadata can only mean
absent since stored values are never empty — yields zero records, one
warning naming the file and every missing field, and the batch
continues with the remaining files.  Stated for the idioms parser and
the anti-patterns parser (whose YAML values can genuinely be falsy). -/
theorem c5_missing_required_fields :
    (∀ lines : List Str,
      (∃ f ∈ GenIdioms.requiredFields,
          dlookup f (GenIdioms.scanHeader lines 0 [] 0).1 = none
          ∨ dlookup f (GenIdioms.scanHeader lines 0 [] 0).1 = some []) →
      GenIdioms.requiredFields.filter
          (fun f => (dlookup f (GenIdioms.scanHeader lines 0 [] 0).1).isNone) ≠ []
      ∧ GenIdioms.requiredFields.filter
            (fun f => (dlookup f (GenIdioms.scanHeader lines 0 [] 0).1).isNone)
          = GenIdioms.requiredFields.filter
              (fun f => match dlookup f (GenIdioms.scanHeader lines 0 [] 0).1 with
                        | none => true
                        | some v => v.isEmpty)
      ∧ GenIdioms.parseStrudelFile lines
          = .missingFields (GenIdioms.requiredFields.filter
              (fun f => (dlookup f (GenIdioms.scanHeader lines 0 [] 0).1).isNone)))
    ∧ (∀ (fname : Str) (d : List (Str × GenAnti.YVal)),
        GenAnti.requiredFields.filter
            (fun f => match dlookup f d with
                      | none => true
                      | some v => GenAnti.yFalsy v) ≠ [] →
        GenAnti.parseYamlFile fname (some (.ymap d))
          = .missingFields (GenAnti.requiredFields.filter
              (fun f => match dlookup f d with
                        | none => true
                        | some v => GenAnti.yFalsy v)))
    ∧ (∀ (pre post : List (Str × List Str)) (fname : Str) (lines : List Str) (m : List Str),
        GenIdioms.parseStrudelFile lines = .missingFields m →
        runFiles GenIdioms.processFile (pre ++ (fname, lines) :: post)
          = ((runFiles GenIdioms.processFile pre).1
               ++ (runFiles GenIdioms.processFile post).1,
             (runFiles GenIdioms.processFile pre).2.1
               + (runFiles GenIdioms.processFile post).2.1,
             (runFiles GenIdioms.processFile pre).2.2
               ++ [Warn.missingFields fname m]
               ++ (runFiles GenIdioms.processFile post).2.2))
    ∧ (∀ (pre post : List (Str × Option GenAnti.YVal)) (fname : Str)
          (d : Option GenAnti.YVal) (m : List Str),
        GenAnti.parseYamlFile fname d = .missingFields m →
        runFiles GenAnti.processFile (pre ++ (fname, d) :: post)
          = ((runFiles GenAnti.processFile pre).1
               ++ (runFiles GenAnti.processFile post).1,
             (runFiles GenAnti.processFile pre).2.1
               + (runFiles GenAnti.processFile post).2.1,
             (runFiles GenAnti.processFile pre).2.2
               ++ [Warn.missingFields fname m]
               ++ (runFiles GenAnti.processFile post).2.2)) := by
  refine ⟨?_, ?_, ?_, ?_⟩
  · intro lines hex
    have hvals := GenIdioms.scanHeader_values lines 0 [] 0 (by intro kv h; simp at h)
    -- a stored value is never the empty string, so absent-or-falsy is absent
    have hagree : ∀ f ∈ GenIdioms.requiredFields,
        ((dlookup f (GenIdioms.scanHeader lines 0 [] 0).1).isNone : Bool)
          = (match dlookup f (GenIdioms.scanHeader lines 0 [] 0).1 with
             | none => true
             | some v => v.isEmpty) := by
      intro f _
      cases hf : dlookup f (GenIdioms.scanHeader lines 0 [] 0).1 with
      | none => rfl
      | some v =>
        have hv := (hvals (f, v) (dlookup_mem f v _ hf)).1
        simp only [Option.isNone_some]
        cases hve : v.isEmpty with
        | false => rfl
        | true => exact absurd (List.isEmpty_eq_true.mp hve) hv
    obtain ⟨f0, hf0mem, hf0⟩ := hex
    have hf0abs : dlookup f0 (GenIdioms.scanHeader lines 0 [] 0).1 = none := by
      rcases hf0 with h | h
      · exact h
      · exfalso
        have hv := (hvals (f0, []) (dlookup_mem f0 [] _ h)).1
        exact hv rfl
    have hne : GenIdioms.requiredFields.filter
        (fun f => (dlookup f (GenIdioms.scanHeader lines 0 [] 0).1).isNone) ≠ [] := by
      intro hc
      have : f0 ∈ GenIdioms.requiredFields.filter
          (fun f => (dlookup f (GenIdioms.scanHeader lines 0 [] 0).1).isNone) :=
        List.mem_filter.mpr ⟨hf0mem, by rw [hf0abs]; rfl⟩
      rw [hc] at this
      simp at this
    refine ⟨hne, List.filter_congr hagree, ?_⟩
    unfold GenIdioms.parseStrudelFile
    rw [if_pos (by simpa using hne)]
  · intro fname d hne
    unfold GenAnti.parseYamlFile
    dsimp only
    rw [if_pos ?_]
    cases hm : GenAnti.requiredFields.filter
        (fun f => match dlookup f d with
                  | none => true
                  | some v => GenAnti.yFalsy v) with
    | nil => exact absurd hm hne
    | cons a t => simp [hm]
  · intro pre post fname lines m hparse
    refine runFiles_skip GenIdioms.processFile pre post (fname, lines)
      [Warn.missingFields fname m] ?_
    unfold GenIdioms.processFile
    rw [hparse]
  · intro pre post fname d m hparse
    refine runFiles_skip GenAnti.processFile pre post (fname, d)
      [Warn.missingFields fname m] ?_
    unfold GenAnti.processFile
    rw [hparse]

/-- Witness for C5: the spec's concrete scenario C — a snippet-style
idiom file missing `@cat` and `@desc` — plus a YAML document with an
empty-string `bad`. -/
theorem c5_witness :
    GenIdioms.parseStrudelFile ["// @name: n".data, "x".data]
      = .missingFields ["cat".data, "desc".data]
    ∧ GenAnti.parseYamlFile "a.yaml".data
        (some (.ymap [("bad".data, .ystr []), ("why".data, .ystr "w".data),
                      ("good".data, .ystr "g".data)]))
      = .missingFields ["bad".data]
    ∧ runFiles GenIdioms.processFile [("a.strudel".data, ["// @name: n".data, "x".data])]
      = ([], 0, [Warn.missingFields "a.strudel".data ["cat".data, "desc".data]]) := by
  have h1 := c5_missing_required_fields.1 ["// @name: n".data, "x".data]
    ⟨"cat".data, by decide, Or.inl (by decide)⟩
  have h2 := c5_missing_required_fields.2.1 "a.yaml".data
    [("bad".data, .ystr []), ("why".data, .ystr "w".data), ("good".data, .ystr "g".data)]
    (by decide)
  have h3 := c5_missing_required_fields.2.2.1 [] [] "a.strudel".data
    ["// @name: n".data, "x".data] ["cat".data, "desc".data]
    (by exact h1.2.2.trans (by rfl))
  refine ⟨h1.2.2.trans (by rfl), h2.trans (by rfl), ?_⟩
  rw [show ([("a.strudel".data, ["// @name: n".data, "x".data])] : List (Str × List Str))
      = [] ++ [("a.strudel".data, ["// @name: n".data, "x".data])] from rfl, h3]
  rfl

/-! ## C8: empty-body rejection -/

/-- C8 as stated is false for the snippets parser: a file consisting of
metadata only — its body is empty — is accepted, because
`parse_snippet_file` captures no body and performs no body check. -/
theorem c8_counterexample :
    GenSnippets.parseSnippetFile "a.strudel".data
        ["// @name: a".data, "// @desc: b".data]
      = .ok { name := "a".data, file := "a.strudel".data, desc := "b".data, tags := none }
    ∧ (["// @name: a".data, "// @desc: b".data] : List Str).drop 2 = [] := by
  exact ⟨rfl, rfl⟩

/-- C8 (amended): the *idioms* parser rejects a file whose body — the
post-metadata lines with blank ends stripped — is empty, as a warning
that skips the file while the batch continues; the *snippets* parser
has no body and never rejects a file on body grounds — its only
outcomes are a missing-fields warning or an accepted record. -/
theorem c8_empty_body :
    (∀ (lines : List Str) (fname : Str),
      GenIdioms.requiredFields.filter
          (fun f => (dlookup f (GenIdioms.scanHeader lines 0 [] 0).1).isNone) = [] →
      joinNL (trimBlankEnds (lines.drop (GenIdioms.scanHeader lines 0 [] 0).2)) = [] →
      GenIdioms.parseStrudelFile lines = .noCode
      ∧ GenIdioms.processFile (fname, lines) = (none, [Warn.noCode fname]))
    ∧ (∀ (pre post : List (Str × List Str)) (fname : Str) (lines : List Str),
        GenIdioms.parseStrudelFile lines = .noCode →
        runFiles GenIdioms.processFile (pre ++ (fname, lines) :: post)
          = ((runFiles GenIdioms.processFile pre).1
               ++ (runFiles GenIdioms.processFile post).1,
             (runFiles GenIdioms.processFile pre).2.1
               + (runFiles GenIdioms.processFile post).2.1,
             (runFiles GenIdioms.processFile pre).2.2
               ++ [Warn.noCode fname]
               ++ (runFiles GenIdioms.processFile post).2.2))
    ∧ (∀ (fname : Str) (lines : List Str),
        (∃ m, GenSnippets.parseSnippetFile fname lines = .missingFields m)
        ∨ (∃ r, GenSnippets.parseSnippetFile fname lines = .ok r)) := by
  refine ⟨?_, ?_, ?_⟩
  · intro lines fname hreq hcode
    have hparse : GenIdioms.parseStrudelFile lines = .noCode := by
      unfold GenIdioms.parseStrudelFile
      simp [hreq, hcode]
    refine ⟨hparse, ?_⟩
    unfold GenIdioms.processFile
    rw [hparse]
  · intro pre post fname lines hparse
    refine runFiles_skip GenIdioms.processFile pre post (fname, lines)
      [Warn.noCode fname] ?_
    unfold GenIdioms.processFile
    rw [hparse]
  · intro fname lines
    unfold GenSnippets.parseSnippetFile
    dsimp only
    split
    · exact Or.inl ⟨_, rfl⟩
    · exact Or.inr ⟨_, rfl⟩

/-- Witness for C8: a metadata-only idiom file is rejected with a
`no code` warning and the batch simply records it. -/
theorem c8_witness :
    GenIdioms.parseStrudelFile ["// @name: n".data, "// @cat: c".data, "// @desc: d".data]
      = .noCode
    ∧ runFiles GenIdioms.processFile
        ([] ++ ("f.strudel".data,
          ["// @name: n".data, "// @cat: c".data, "// @desc: d".data]) :: [])
      = ([], 0, [Warn.noCode "f.strudel".data]) := by
  have h := c8_empty_body.1
    ["// @name: n".data, "// @cat: c".data, "// @desc: d".data] "f.strudel".data
    (by rfl) (by rfl)
  have hb := c8_empty_body.2.1 [] [] "f.strudel".data
    ["// @name: n".data, "// @cat: c".data, "// @desc: d".data] h.1
  exact ⟨h.1, hb.trans (by rfl)⟩

/-! ## C7: determinism of the batch over the directory listing -/

theorem sortFiles_sorted {κ : Type} (l : List (Str × κ)) :
    (sortFiles l).Sorted (fun a b => a.1 ≤ b.1) := by
  haveI : IsTotal (Str × κ) (fun a b => a.1 ≤ b.1) := ⟨fun a b => le_total a.1 b.1⟩
  haveI : IsTrans (Str × κ) (fun a b => a.1 ≤ b.1) := ⟨fun a b c h1 h2 => le_trans h1 h2⟩
  exact List.sorted_insertionSort _ l

theorem sortFiles_perm {κ : Type} (l : List (Str × κ)) : List.Perm (sortFiles l) l :=
  List.perm_insertionSort _ l

/-- Two sorted key-value lists that are permutations of each other and
have duplicate-free keys are equal. -/
theorem eq_of_sorted_by_key {κ : Type} :
    ∀ {l1 l2 : List (Str × κ)}, List.Perm l1 l2 →
      l1.Sorted (fun a b => a.1 ≤ b.1) → l2.Sorted (fun a b => a.1 ≤ b.1) →
      (l1.map Prod.fst).Nodup → l1 = l2 := by
  intro l1
  induction l1 with
  | nil =>
    intro l2 hp _ _ _
    have hl := hp.length_eq
    symm
    exact List.length_eq_zero.mp (by simpa using hl.symm)
  | cons a t1 ih =>
    intro l2 hp hs1 hs2 hnd
    cases l2 with
    | nil =>
      have hl := hp.length_eq
      simp at hl
    | cons b t2 =>
      have hab : a = b := by
        by_contra hne
        have hma : a ∈ b :: t2 := hp.mem_iff.mp (List.mem_cons_self a t1)
        have hmb : b ∈ a :: t1 := hp.mem_iff.mpr (List.mem_cons_self b t2)
        have hat2 : a ∈ t2 := by
          rcases List.mem_cons.mp hma with h | h
          · exact absurd h hne
          · exact h
        have hbt1 : b ∈ t1 := by
          rcases List.mem_cons.mp hmb with h | h
          · exact absurd h.symm hne
          · exact h
        have h1 : a.1 ≤ b.1 := (List.sorted_cons.mp hs1).1 b hbt1
        have h2 : b.1 ≤ a.1 := (List.sorted_cons.mp hs2).1 a hat2
        have hk : a.1 = b.1 := le_antisymm h1 h2
        rw [List.map_cons, List.nodup_cons] at hnd
        exact hnd.1 (by rw [hk]; exact List.mem_map.mpr ⟨b, hbt1, rfl⟩)
      subst hab
      have hp2 : List.Perm t1 t2 := hp.cons_inv
      rw [ih hp2 (List.sorted_cons.mp hs1).2 (List.sorted_cons.mp hs2).2
        (by rw [List.map_cons, List.nodup_cons] at hnd; exact hnd.2)]

theorem sortFiles_eq_of_perm {κ : Type} {l1 l2 : List (Str × κ)}
    (hp : List.Perm l1 l2) (hnd : (l1.map Prod.fst).Nodup) :
    sortFiles l1 = sortFiles l2 := by
  refine eq_of_sorted_by_key ?_ (sortFiles_sorted l1) (sortFiles_sorted l2) ?_
  · exact (sortFiles_perm l1).trans (hp.trans (sortFiles_perm l2).symm)
  · exact (((sortFiles_perm l1).map Prod.fst).nodup_iff).mpr hnd

/-- C7 : the generators are deterministic functions of the source
directory's contents: `os.listdir` may return the filenames in any
order, but the generators filter and then sort the listing, so any two
listing orders of the same duplicate-free directory produce identical
output bytes, counts and warnings — hence two runs over an unchanged
directory are byte-identical.  (Within each record the field insertion
order is fixed by construction: required fields first, then the
optional fields in declared order.) -/
theorem c7_deterministic_output :
    (∀ l1 l2 : List (Str × List Str), List.Perm l1 l2 → (l1.map Prod.fst).Nodup →
        GenIdioms.generateIdioms l1 = GenIdioms.generateIdioms l2)
    ∧ (∀ l1 l2 : List (Str × Option GenAnti.YVal), List.Perm l1 l2 →
        (l1.map Prod.fst).Nodup →
        GenAnti.generateAntiPatterns l1 = GenAnti.generateAntiPatterns l2) := by
  constructor
  · intro l1 l2 hp hnd
    unfold GenIdioms.generateIdioms
    rw [sortFiles_eq_of_perm (hp.filter _)
      ((List.Sublist.map Prod.fst (List.filter_sublist l1)).nodup hnd)]
  · intro l1 l2 hp hnd
    unfold GenAnti.generateAntiPatterns
    rw [sortFiles_eq_of_perm (hp.filter _)
      ((List.Sublist.map Prod.fst (List.filter_sublist l1)).nodup hnd)]

/-- Witness for C7: two listing orders of the same two-file directory
generate identical output. -/
theorem c7_witness :
    GenIdioms.generateIdioms
        [("b.strudel".data, ["// @name: b".data, "y".data]),
         ("a.strudel".data, ["// @name: a".data, "x".data])]
      = GenIdioms.generateIdioms
        [("a.strudel".data, ["// @name: a".data, "x".data]),
         ("b.strudel".data, ["// @name: b".data, "y".data])] := by
  exact c7_deterministic_output.1 _ _ (List.Perm.swap _ _ _) (by decide)

/-! ## C3: the drum-machine split -/

theorem msAdd_inv (counts : List (Str × JVal)) (processed : List Str)
    (acc : List (Str × List (Str × JVal))) (name : Str)
    (hinv : GenData.MSInv counts processed acc) :
    GenData.MSInv counts (processed ++ [name]) (GenData.msAdd counts acc name) := by
  obtain ⟨hknd, hsome, hnone⟩ := hinv
  unfold GenData.msAdd
  dsimp only
  by_cases hm : (dlookup (GenData.machineOf name) acc).isSome
  · rw [if_pos hm]
    obtain ⟨d0, hd0⟩ := Option.isSome_iff_exists.mp hm
    have hget : dget acc (GenData.machineOf name) [] = d0 := by
      unfold dget; rw [hd0]; rfl
    rw [hget]
    obtain ⟨hd0nd, hd0ne, hd0mem⟩ := hsome (GenData.machineOf name) d0 hd0
    refine ⟨?_, ?_, ?_⟩
    · exact dset_keys_nodup acc _ _ hknd
    · intro m d hmd
      by_cases hmm : m = GenData.machineOf name
      · subst hmm
        rw [dlookup_dset_self] at hmd
        have hd : dset d0 name (dget counts name (JVal.jint 1)) = d := by injection hmd
        rw [← hd]
        refine ⟨dset_keys_nodup d0 _ _ hd0nd, dset_ne_nil _ _ _, ?_⟩
        intro n c
        rw [mem_dset_iff d0 name (dget counts name (JVal.jint 1)) (n, c) hd0nd]
        constructor
        · rintro (⟨hne, hmem⟩ | heq)
          · obtain ⟨hp, hmach, hc⟩ := (hd0mem n c).mp hmem
            exact ⟨List.mem_append_left _ hp, hmach, hc⟩
          · have hn : n = name := congrArg Prod.fst heq
            have hc : c = dget counts name (JVal.jint 1) := congrArg Prod.snd heq
            subst hn
            exact ⟨List.mem_append_right _ (List.mem_singleton.mpr rfl), rfl, hc⟩
        · rintro ⟨hp, hmach, hc⟩
          rcases List.mem_append.mp hp with hp | hp
          · by_cases hn : n = name
            · right
              subst hn
              rw [hc]
            · left
              exact ⟨hn, (hd0mem n c).mpr ⟨hp, hmach, hc⟩⟩
          · right
            have hn := List.mem_singleton.mp hp
            subst hn
            rw [hc]
      · rw [dlookup_dset_ne _ _ _ _ hmm] at hmd
        obtain ⟨hnd2, hne2, hmem2⟩ := hsome m d hmd
        refine ⟨hnd2, hne2, ?_⟩
        intro n c
        rw [hmem2 n c]
        constructor
        · rintro ⟨hp, hmach, hc⟩
          exact ⟨List.mem_append_left _ hp, hmach, hc⟩
        · rintro ⟨hp, hmach, hc⟩
          rcases List.mem_append.mp hp with hp | hp
          · exact ⟨hp, hmach, hc⟩
          · exfalso
            have hn := List.mem_singleton.mp hp
            subst hn
            exact hmm hmach.symm
    · intro m hmd n hn
      by_cases hmm : m = GenData.machineOf name
      · subst hmm
        rw [dlookup_dset_self] at hmd
        exact absurd hmd (by simp)
      · rw [dlookup_dset_ne _ _ _ _ hmm] at hmd
        rcases List.mem_append.mp hn with hp | hp
        · exact hnone m hmd n hp
        · have hn2 := List.mem_singleton.mp hp
          subst hn2
          exact fun hcon => hmm hcon.symm
  · rw [if_neg hm]
    rw [Option.not_isSome_iff_eq_none] at hm
    have hlk1 : dlookup (GenData.machineOf name) (acc ++ [(GenData.machineOf name, [])])
        = some [] := by
      rw [dlookup_append_none _ _ hm, dlookup_cons, if_pos rfl]
    have hget : dget (acc ++ [(GenData.machineOf name, [])]) (GenData.machineOf name) []
        = [] := by
      unfold dget; rw [hlk1]; rfl
    rw [hget]
    have hpres : (dlookup (GenData.machineOf name)
        (acc ++ [(GenData.machineOf name, [])])).isSome := by
      rw [hlk1]; rfl
    have hknd1 : ((acc ++ [(GenData.machineOf name, [])]).map Prod.fst).Nodup := by
      rw [List.map_append, List.nodup_append]
      refine ⟨hknd, by simp, ?_⟩
      intro a ha hb
      have hb2 : a = GenData.machineOf name := by simpa using hb
      subst hb2
      exact (dlookup_eq_none_iff _ acc).mp hm ha
    refine ⟨?_, ?_, ?_⟩
    · rw [dset_keys_present _ _ _ hpres]
      exact hknd1
    · intro m d hmd
      by_cases hmm : m = GenData.machineOf name
      · subst hmm
        rw [dlookup_dset_self] at hmd
        have hd : dset ([] : List (Str × JVal)) name (dget counts name (JVal.jint 1)) = d := by
          injection hmd
        have hd2 : d = [(name, dget counts name (JVal.jint 1))] := by
          rw [← hd]
          rfl
        rw [hd2]
        refine ⟨by simp, by simp, ?_⟩
        intro n c
        simp only [List.mem_singleton]
        constructor
        · intro he
          have hn : n = name := congrArg Prod.fst he
          have hc : c = dget counts name (JVal.jint 1) := congrArg Prod.snd he
          subst hn
          exact ⟨List.mem_append_right _ (List.mem_singleton.mpr rfl), rfl, hc⟩
        · rintro ⟨hp, hmach, hc⟩
          rcases List.mem_append.mp hp with hp | hp
          · exact absurd hmach (hnone (GenData.machineOf name) hm n hp)
          · have hn := List.mem_singleton.mp hp
            subst hn
            rw [hc]
      · rw [dlookup_dset_ne _ _ _ _ hmm] at hmd
        have hmd2 : dlookup m acc = some d := by
          cases hacc : dlookup m acc with
          | some d2 =>
            rw [dlookup_append_some _ _ hacc] at hmd
            injection hmd with h2
            exact congrArg some h2
          | none =>
            rw [dlookup_append_none _ _ hacc, dlookup_cons,
              if_neg (fun hcon => hmm hcon.symm)] at hmd
            exact absurd hmd (by simp [dlookup])
        obtain ⟨hnd2, hne2, hmem2⟩ := hsome m d hmd2
        refine ⟨hnd2, hne2, ?_⟩
        intro n c
        rw [hmem2 n c]
        constructor
        · rintro ⟨hp, hmach, hc⟩
          exact ⟨List.mem_append_left _ hp, hmach, hc⟩
        · rintro ⟨hp, hmach, hc⟩
          rcases List.mem_append.mp hp with hp | hp
          · exact ⟨hp, hmach, hc⟩
          · exfalso
            have hn := List.mem_singleton.mp hp
            subst hn
            exact hmm hmach.symm
    · intro m hmd n hn
      by_cases hmm : m = GenData.machineOf name
      · subst hmm
        rw [dlookup_dset_self] at hmd
        exact absurd hmd (by simp)
      · rw [dlookup_dset_ne _ _ _ _ hmm] at hmd
        have hmd2 : dlookup m acc = none := by
          cases hacc : dlookup m acc with
          | some d2 =>
            rw [dlookup_append_some _ _ hacc] at hmd
            exact absurd hmd (by simp)
          | none => rfl
        rcases List.mem_append.mp hn with hp | hp
        · exact hnone m hmd2 n hp
        · have hn2 := List.mem_singleton.mp hp
          subst hn2
          exact fun hcon => hmm hcon.symm

theorem foldl_msAdd_inv (counts : List (Str × JVal)) :
    ∀ (names processed : List Str) (acc : List (Str × List (Str × JVal))),
      GenData.MSInv counts processed acc →
      GenData.MSInv counts (processed ++ names) (names.foldl (GenData.msAdd counts) acc) := by
  intro names
  induction names with
  | nil => intro processed acc h; simpa using h
  | cons n rest ih =>
    intro processed acc h
    rw [List.foldl_cons]
    have h2 := ih (processed ++ [n]) _ (msAdd_inv counts processed acc n h)
    rw [List.append_assoc] at h2
    exact h2

theorem machineSounds_inv (info : GenData.DrumInfo) :
    GenData.MSInv info.sampleCounts info.names (GenData.machineSounds info) := by
  have hbase : GenData.MSInv info.sampleCounts [] [] := by
    refine ⟨by simp, ?_, ?_⟩
    · intro m d h
      exact absurd h (by simp [dlookup])
    · intro m _ n hn
      simp at hn
  have h := foldl_msAdd_inv info.sampleCounts info.names [] [] hbase
  simpa [GenData.machineSounds] using h

theorem soundsUnion_eq (info : GenData.DrumInfo) :
    GenData.soundsUnion info
      = (GenData.emittedMachineSounds info info.machines).flatten := by
  unfold GenData.soundsUnion GenData.drumMachineRecords GenData.emittedMachineSounds
  dsimp only
  induction info.machines with
  | nil => rfl
  | cons m rest ih =>
    by_cases hc : (dget (GenData.machineSounds info) m []).isEmpty
    · rw [List.filterMap_cons, List.filterMap_cons]
      simp only [hc, Bool.not_true]
      rw [if_neg (by simp), if_neg (by simp)]
      exact ih
    · have hcE : (dget (GenData.machineSounds info) m []).isEmpty = false := by
        simpa using hc
      rw [List.filterMap_cons, List.filterMap_cons]
      simp only [hcE, Bool.not_false, if_true]
      rw [List.flatMap_cons, List.flatten_cons, ih]
      congr 1

/-- Every key of the union over the machines of `L` is a name whose
machine prefix lies in `L`. -/
theorem unionKeys_machine (info : GenData.DrumInfo) :
    ∀ (L : List Str) (a : Str),
      a ∈ ((GenData.emittedMachineSounds info L).flatten.map Prod.fst) →
      ∃ m ∈ L, GenData.machineOf a = m := by
  intro L a ha
  obtain ⟨⟨a2, c⟩, hmem, hfst⟩ := List.mem_map.mp ha
  obtain ⟨d, hd, hpair⟩ := List.mem_flatten.mp hmem
  obtain ⟨m, hmL, hfm⟩ := List.mem_filterMap.mp hd
  refine ⟨m, hmL, ?_⟩
  have hget : dget (GenData.machineSounds info) m [] = d ∧ d ≠ [] := by
    by_cases hc : (dget (GenData.machineSounds info) m []).isEmpty
    · rw [hc] at hfm
      exact absurd hfm (by simp)
    · have hcE : (dget (GenData.machineSounds info) m []).isEmpty = false := by simpa using hc
      rw [hcE] at hfm
      simp only [Bool.not_false, if_true] at hfm
      have hd2 : dget (GenData.machineSounds info) m [] = d := by injection hfm
      refine ⟨hd2, ?_⟩
      rw [← hd2]
      rw [← List.isEmpty_eq_false]
      exact hcE
    -- (`hget` done)
  have hlk : dlookup m (GenData.machineSounds info) = some d := by
    cases hl : dlookup m (GenData.machineSounds info) with
    | none =>
      exfalso
      have : dget (GenData.machineSounds info) m [] = [] := by
        unfold dget; rw [hl]; rfl
      rw [hget.1] at this
      exact hget.2 this
    | some d2 =>
      have : dget (GenData.machineSounds info) m [] = d2 := by
        unfold dget; rw [hl]; rfl
      rw [hget.1] at this
      rw [this]
  obtain ⟨_, _, hmem2⟩ := (machineSounds_inv info).2.1 m d hlk
  have := (hmem2 a2 c).mp hpair
  rw [← hfst]
  exact this.2.1

/-- C3 as stated is false: a name whose machine prefix is not listed in
the category's `machines` list is omitted from every per-machine
record.  With `names = ["kit_bd"]` and `machines = []` nothing is
emitted, so the union is empty while the original mapping is not. -/
theorem c3_counterexample :
    GenData.soundsUnion
        { description := [], machines := [], suffixes := [],
          sampleCounts := [], names := ["kit_bd".data] } = []
    ∧ (["kit_bd".data] : List Str) ≠ [] := by
  exact ⟨rfl, by simp⟩

/-- C3 (amended): when every name's machine prefix appears in the
`machines` list and that list is duplicate-free, the union of the
per-instrument `sounds` mappings over all emitted per-machine records
reconstructs exactly the original name→count mapping — every input
name appears with its recorded sample count (default 1), no other key
appears, and no key is duplicated. -/
theorem c3_drum_split_roundtrip (info : GenData.DrumInfo)
    (hcov : ∀ n ∈ info.names, GenData.machineOf n ∈ info.machines)
    (hnd : info.machines.Nodup) :
    ((GenData.soundsUnion info).map Prod.fst).Nodup
    ∧ (∀ n c, (n, c) ∈ GenData.soundsUnion info ↔
        (n ∈ info.names ∧ c = dget info.sampleCounts n (JVal.jint 1))) := by
  have hinv := machineSounds_inv info
  constructor
  · rw [soundsUnion_eq]
    -- induction over the machines list, which is duplicate-free
    have hgen : ∀ L : List Str, L.Nodup →
        (((GenData.emittedMachineSounds info L).flatten).map Prod.fst).Nodup := by
      intro L
      induction L with
      | nil => intro _; simp [GenData.emittedMachineSounds]
      | cons m rest ih =>
        intro hndL
        rw [List.nodup_cons] at hndL
        unfold GenData.emittedMachineSounds
        rw [List.filterMap_cons]
        by_cases hc : (dget (GenData.machineSounds info) m []).isEmpty
        · simp only [hc, Bool.not_true]
          rw [if_neg (by simp)]
          exact ih hndL.2
        · have hcE : (dget (GenData.machineSounds info) m []).isEmpty = false := by simpa using hc
          simp only [hcE, Bool.not_false, if_true]
          rw [List.flatten_cons, List.map_append, List.nodup_append]
          have hlk : dlookup m (GenData.machineSounds info)
              = some (dget (GenData.machineSounds info) m []) := by
            cases hl : dlookup m (GenData.machineSounds info) with
            | none =>
              exfalso
              have h0 : dget (GenData.machineSounds info) m [] = [] := by
                unfold dget; rw [hl]; rfl
              rw [h0] at hcE
              simp at hcE
            | some d2 =>
              have h0 : dget (GenData.machineSounds info) m [] = d2 := by
                unfold dget; rw [hl]; rfl
              rw [h0]
          obtain ⟨hdnd, _, hdmem⟩ := hinv.2.1 m _ hlk
          refine ⟨hdnd, ih hndL.2, ?_⟩
          intro a ha hb
          obtain ⟨⟨a2, c⟩, hmem, hfst⟩ := List.mem_map.mp ha
          have hma : GenData.machineOf a = m := by
            have := (hdmem a2 c).mp hmem
            rw [← hfst]
            exact this.2.1
          obtain ⟨m2, hm2, hma2⟩ := unionKeys_machine info rest a hb
          rw [hma] at hma2
          rw [hma2] at hndL
          exact hndL.1 hm2
    exact hgen info.machines hnd
  · intro n c
    rw [soundsUnion_eq]
    constructor
    · intro h
      obtain ⟨d, hd, hpair⟩ := List.mem_flatten.mp h
      obtain ⟨m, hmL, hfm⟩ := List.mem_filterMap.mp hd
      have hget : dget (GenData.machineSounds info) m [] = d := by
        by_cases hc : (dget (GenData.machineSounds info) m []).isEmpty
        · rw [hc] at hfm
          exact absurd hfm (by simp)
        · have hcE : (dget (GenData.machineSounds info) m []).isEmpty = false := by simpa using hc
          rw [hcE] at hfm
          simp only [Bool.not_false, if_pos rfl] at hfm
          injection hfm
      have hlk : dlookup m (GenData.machineSounds info) = some d := by
        cases hl : dlookup m (GenData.machineSounds info) with
        | none =>
          exfalso
          have h0 : dget (GenData.machineSounds info) m [] = [] := by
            unfold dget; rw [hl]; rfl
          rw [hget] at h0
          subst h0
          obtain ⟨m2, hm2L, hfm2⟩ := List.mem_filterMap.mp hd
          simp at hpair
        | some d2 =>
          have h0 : dget (GenData.machineSounds info) m [] = d2 := by
            unfold dget; rw [hl]; rfl
          rw [hget] at h0
          rw [← h0]
      obtain ⟨_, _, hdmem⟩ := hinv.2.1 m d hlk
      have := (hdmem n c).mp hpair
      exact ⟨this.1, this.2.2⟩
    · rintro ⟨hn, hc⟩
      have hmac := hcov n hn
      cases hl : dlookup (GenData.machineOf n) (GenData.machineSounds info) with
      | none => exact absurd rfl (hinv.2.2 _ hl n hn)
      | some d =>
        obtain ⟨_, hdne, hdmem⟩ := hinv.2.1 _ d hl
        have hpair : (n, c) ∈ d := (hdmem n c).mpr ⟨hn, rfl, hc⟩
        have hget : dget (GenData.machineSounds info) (GenData.machineOf n) [] = d := by
          unfold dget; rw [hl]; rfl
        refine List.mem_flatten.mpr ⟨d, ?_, hpair⟩
        refine List.mem_filterMap.mpr ⟨GenData.machineOf n, hmac, ?_⟩
        rw [hget]
        rw [if_pos (by rw [List.isEmpty_eq_false.mpr hdne]; rfl)]

/-- Witness for C3 at a concrete two-machine category. -/
theorem c3_witness :
    ("kit_bd".data, JVal.jint 4) ∈ GenData.soundsUnion
        { description := [], machines := ["kit".data, "tr808".data], suffixes := [],
          sampleCounts := [("kit_bd".data, JVal.jint 4)],
          names := ["kit_bd".data, "kit_sd".data, "tr808_bd".data] }
    ∧ ("tr808_bd".data, JVal.jint 1) ∈ GenData.soundsUnion
        { description := [], machines := ["kit".data, "tr808".data], suffixes := [],
          sampleCounts := [("kit_bd".data, JVal.jint 4)],
          names := ["kit_bd".data, "kit_sd".data, "tr808_bd".data] }
    ∧ ((GenData.soundsUnion
        { description := [], machines := ["kit".data, "tr808".data], suffixes := [],
          sampleCounts := [("kit_bd".data, JVal.jint 4)],
          names := ["kit_bd".data, "kit_sd".data, "tr808_bd".data] }).map Prod.fst).Nodup := by
  have h := c3_drum_split_roundtrip
    { description := [], machines := ["kit".data, "tr808".data], suffixes := [],
      sampleCounts := [("kit_bd".data, JVal.jint 4)],
      names := ["kit_bd".data, "kit_sd".data, "tr808_bd".data] }
    (by decide) (by decide)
  refine ⟨(h.2 _ _).mpr ⟨by decide, rfl⟩, (h.2 _ _).mpr ⟨by decide, rfl⟩, h.1⟩

end StrudelGen